import Mathlib

/-!
Shallow embedding of the GitPy repository (a minimal git clone in Python:
`main.py`, `Repository.py`, `src/GitObject.py`) together with proofs about
the claims of its specification.

Modelling conventions:
* Python `bytes` values are `List Nat` (one `Nat` per byte); Python `str`
  values are `List Char` (one `Char` per code point).  `str.encode()` /
  `bytes.decode()` are modelled as the code-point map in both directions,
  which agrees with UTF-8 on the ASCII data the program manipulates.
* `hashlib.sha1().hexdigest()` is an abstract parameter
  `sha1 : Bytes → Str`; theorems that depend on collision-freedom carry an
  explicit injectivity hypothesis on the finitely many objects involved.
* `zlib.compress` / `zlib.decompress` are abstract parameters
  `compress : Bytes → Bytes` and `decompress : Bytes → Option Bytes`
  (decompression of junk fails); the lossless-compression law
  `∀ b, decompress (compress b) = some b` is an explicit hypothesis.
* Python exceptions are modelled with `Option`: `none` means the Python
  code raises at that point.
* The on-disk repository (object files, refs, HEAD, index, working tree)
  is a `Repo` record; each Python method becomes a function of that state.
* Loops whose termination is not structural (they chase hashes through the
  object store) take an explicit fuel argument; with enough fuel they agree
  with the Python loop whenever it terminates.
-/

namespace GitPy

abbrev Bytes := List Nat

abbrev Str := List Char

/-- Encoding a Python `str` to `bytes`, modelled as the code-point map
(identical to UTF-8 on ASCII). -/
def strBytes (s : Str) : Bytes := s.map Char.toNat

/-- Decoding `bytes` to a Python `str`, the inverse code-point map. -/
def bytesStr (b : Bytes) : Str := b.map Char.ofNat

/-- Python `s.split(sep)` for a one-character separator: splits at every
occurrence, keeping empty pieces; `"".split(sep) == [""]`. -/
def splitOnC (c : Char) : Str → List Str
  | [] => [[]]
  | x :: xs =>
    match splitOnC c xs with
    | [] => [[]]
    | h :: t => if x = c then [] :: h :: t else (x :: h) :: t

/-- Python joining of pieces with a one-character separator. -/
def joinC (c : Char) : List Str → Str
  | [] => []
  | [s] => s
  | s :: t => s ++ c :: joinC c t

/-- Python `s.split(sep, 1)` when the separator occurs (`none` when the
unpacking `a, b = s.split(sep, 1)` would raise). -/
def splitOnceC (c : Char) : Str → Option (Str × Str)
  | [] => none
  | x :: xs =>
    if x = c then some ([], xs)
    else (splitOnceC c xs).map (fun p => (x :: p.1, p.2))

/-- Python `str.strip()` restricted to the ASCII whitespace the program can
meet in its own files. -/
def trimWS (s : Str) : Str :=
  let ws : Char → Bool := fun ch => ch = ' ' || ch = '\t' || ch = '\n' || ch = '\r'
  ((s.dropWhile ws).reverse.dropWhile ws).reverse

/-- Decimal digits of a number, as Python `str(n)` produces for `n ≥ 0`. -/
def natDecStr (n : Nat) : Str := Nat.toDigits 10 n

/-- Two lowercase hex digits of one byte, as Python `bytes.hex()` renders it. -/
def byteHexStr (b : Nat) : Str := [Nat.digitChar (b / 16 % 16), Nat.digitChar (b % 16)]

/-- Python `bytes.hex()`: lowercase hex, two digits per byte. -/
def bytesHexStr (bs : Bytes) : Str := (bs.map byteHexStr).flatten

/-- Value of a hex digit accepted by Python `bytes.fromhex` (either case). -/
def hexVal? (ch : Char) : Option Nat :=
  if '0' ≤ ch ∧ ch ≤ '9' then some (ch.toNat - 48)
  else if 'a' ≤ ch ∧ ch ≤ 'f' then some (ch.toNat - 87)
  else if 'A' ≤ ch ∧ ch ≤ 'F' then some (ch.toNat - 55)
  else none

/-- Python `bytes.fromhex` on a string without separators: `none` when
Python raises `ValueError` (odd length or a non-hex character). -/
def fromHex? : Str → Option Bytes
  | [] => some []
  | [_] => none
  | c1 :: c2 :: t =>
    match hexVal? c1, hexVal? c2, fromHex? t with
    | some a, some b, some r => some ((a * 16 + b) :: r)
    | _, _, _ => none

/-- Total wrapper for `bytes.fromhex`; every theorem that parses the result
back carries a hypothesis making the argument valid hex, so the default
branch (where Python would raise) is never exercised. -/
def fromHexD (s : Str) : Bytes := (fromHex? s).getD []

/-- Lowercase hex digit test. -/
def isLowerHex (ch : Char) : Bool := ('0' ≤ ch && ch ≤ '9') || ('a' ≤ ch && ch ≤ 'f')

/-- The shape of a `hashlib.sha1().hexdigest()` value: forty lowercase hex
digits. -/
def Hex40 (s : Str) : Prop := s.length = 40 ∧ ∀ ch ∈ s, isLowerHex ch = true

instance (s : Str) : Decidable (Hex40 s) := by
  unfold Hex40; infer_instance

/-! ## The object codec (`GitObject` in `src/GitObject.py` / `main.py`) -/

/-- A git object as the Python class holds it: `self.type` (here `kind`)
and `self.content`. -/
structure GitObj where
  kind : Str
  content : Bytes
deriving DecidableEq

/-- The canonical header `f"{self.type} {len(self.content)}\0".encode()`. -/
def objHeader (kind : Str) (content : Bytes) : Bytes :=
  strBytes (kind ++ ' ' :: natDecStr content.length) ++ [0]

/-- Header plus content: the byte string that is hashed and compressed. -/
def objPayload (o : GitObj) : Bytes := objHeader o.kind o.content ++ o.content

/-- `GitObject.hash`: the digest of the payload, via the abstract `sha1`. -/
def objHashHex (sha1 : Bytes → Str) (o : GitObj) : Str := sha1 (objPayload o)

/-- `GitObject.serialize`: `zlib.compress(header + content)`. -/
def gitSerialize (compress : Bytes → Bytes) (o : GitObj) : Bytes :=
  compress (objPayload o)

/-- `GitObject.deserialize`: decompress, locate the first NUL with
`bytes.find` (which yields `-1`, hence Python's `decompressed[:-1]` /
`decompressed[0:]` slices, when no NUL exists), decode the header and
unpack `obj_type, _ = header.split(" ")`; the unpacking raises unless the
split has exactly two fields.  No length or kind validation happens. -/
def gitDeserialize (decompress : Bytes → Option Bytes) (data : Bytes) : Option GitObj :=
  match decompress data with
  | none => none
  | some dec =>
    let headerBytes : Bytes :=
      match List.findIdx? (· = 0) dec with
      | none => dec.dropLast
      | some i => dec.take i
    let content : Bytes :=
      match List.findIdx? (· = 0) dec with
      | none => dec
      | some i => dec.drop (i + 1)
    match splitOnC ' ' (bytesStr headerBytes) with
    | [k, _] => some ⟨k, content⟩
    | _ => none

/-! ## Tree entries (`Tree` in `src/GitObject.py` / `main.py`) -/

/-- One tree entry `(mode, name, hash)` exactly as the Python tuple. -/
abbrev TEntry := Str × Str × Str

/-- Python string `<`: strict lexicographic comparison on code points. -/
def strLtb : Str → Str → Bool
  | [], [] => false
  | [], _ :: _ => true
  | _ :: _, [] => false
  | a :: as, b :: bs =>
    if a.toNat < b.toNat then true
    else if b.toNat < a.toNat then false
    else strLtb as bs

/-- Python tuple `<` on `(mode, name, hash)`. -/
def entryLtb (e f : TEntry) : Bool :=
  strLtb e.1 f.1 ||
    (decide (e.1 = f.1) &&
      (strLtb e.2.1 f.2.1 ||
        (decide (e.2.1 = f.2.1) && strLtb e.2.2 f.2.2)))

/-- The non-strict order `sorted` sorts by. -/
def entryLE (e f : TEntry) : Prop := entryLtb f e = false

instance : DecidableRel entryLE := by
  unfold entryLE; infer_instance

/-- Non-strict code-point order on strings, for Python `sorted` on paths. -/
def strLE (a b : Str) : Prop := strLtb b a = false

instance : DecidableRel strLE := by
  unfold strLE; infer_instance

/-- Serialized form of one entry: `f"{mode} {name}\0".encode()` followed by
`bytes.fromhex(obj_hash)`. -/
def entryBytes (e : TEntry) : Bytes :=
  strBytes (e.1 ++ ' ' :: e.2.1) ++ 0 :: fromHexD e.2.2

/-- `Tree._serialize_entries`: concatenate the records of the entries in
`sorted` order.  `List.insertionSort` produces the same list as Python's
stable sort because `entryLE` is total, transitive and antisymmetric, which
makes the sorted arrangement of a multiset unique. -/
def serialize_entries (es : List TEntry) : Bytes :=
  ((List.insertionSort entryLE es).map entryBytes).flatten

/-- The tree object a list of logical entries produces. -/
def treeObj (es : List TEntry) : GitObj := ⟨"tree".data, serialize_entries es⟩

/-- `Tree.from_content` body with explicit fuel (the Python `while` loop
advances its cursor past the NUL and twenty hash bytes each round, so
`b.length` rounds always suffice).  `none` models the `ValueError` raised
by `mode, name = mode_name.split(" ", 1)` when no space occurs; a record
without a NUL terminates the loop (`break`); the twenty hash bytes are
sliced permissively like Python slicing. -/
def treeParseF : Nat → Bytes → Option (List TEntry)
  | 0, _ => some []
  | _ + 1, [] => some []
  | fu + 1, b@(_ :: _) =>
    match List.findIdx? (· = 0) b with
    | none => some []
    | some i =>
      match splitOnceC ' ' (bytesStr (b.take i)) with
      | none => none
      | some (m, n) =>
        let h := bytesHexStr ((b.drop (i + 1)).take 20)
        match treeParseF fu (b.drop (i + 21)) with
        | none => none
        | some rest => some ((m, n, h) :: rest)

/-- `Tree.from_content` on a full content buffer. -/
def tree_from_content (b : Bytes) : Option (List TEntry) := treeParseF b.length b

/-! ## The commit codec (`Commit` in `src/GitObject.py` / `main.py`) -/

/-- The fields the `Commit` constructor receives (`commiter` spelt as in
the source). -/
structure CommitFields where
  treeHash : Str
  parents : List Str
  author : Str
  commiter : Str
  message : Str
  timestamp : Nat
deriving DecidableEq

/-- Joining lines with `"\n".join(lines)`. -/
def joinLines (ls : List Str) : Str := joinC '\n' ls

/-- `Commit._serialize_commit`: tree line, parent lines, author and
committer lines with timestamp and `+0000`, a blank line, the message. -/
def commit_serialize (c : CommitFields) : Bytes :=
  strBytes (joinLines (
    ("tree ".data ++ c.treeHash) ::
    c.parents.map (fun p => "parent ".data ++ p) ++
    [ "author ".data ++ c.author ++ ' ' :: natDecStr c.timestamp ++ " +0000".data,
      "committer ".data ++ c.commiter ++ ' ' :: natDecStr c.timestamp ++ " +0000".data,
      [],
      c.message ]))

/-- What `Commit.from_content` recovers (`tree_hash`, `author`, `commiter`
stay unbound — `None` — when no matching line occurs). -/
structure ParsedCommit where
  treeHash : Option Str
  parents : List Str
  author : Option Str
  commiter : Option Str
  message : Str
  timestamp : Nat
deriving DecidableEq

/-- Second space-separated field of a line, Python `line.split(" ")[1]`;
the call sites guard with `startswith`, so the field exists. -/
def secondField (l : Str) : Str :=
  match splitOnC ' ' l with
  | _ :: s :: _ => s
  | _ => []

/-- Python `s.rsplit(" ", 2)`: at most two splits, counted from the right. -/
def rsplit2 (s : Str) : List Str :=
  let parts := splitOnC ' ' s
  if parts.length ≤ 3 then parts
  else [joinC ' ' (parts.take (parts.length - 2)),
        parts.getD (parts.length - 2) [],
        parts.getD (parts.length - 1) []]

/-- Python `int(s)` on the digit strings the program writes itself (`none`
when `int` raises on them). -/
def decNat? (s : Str) : Option Nat :=
  match s with
  | [] => none
  | _ => s.foldl (fun acc ch =>
      match acc with
      | none => none
      | some a => if '0' ≤ ch ∧ ch ≤ '9' then some (a * 10 + (ch.toNat - 48)) else none)
      (some 0)

/-- The header loop of `Commit.from_content` over the lines before the
first blank one, accumulating `(tree_hash, parent_hashes, author,
commiter, timestamp)`; `none` models the exceptions an `author` line can
raise (`IndexError` on too few fields, `ValueError` from `int`). -/
def commitHeaderFold :
    List Str → Option Str → List Str → Option Str → Option Str → Option Nat →
    Option (Option Str × List Str × Option Str × Option Str × Option Nat)
  | [], th, ps, au, co, ts => some (th, ps, au, co, ts)
  | l :: rest, th, ps, au, co, ts =>
    if "tree ".data.isPrefixOf l then
      commitHeaderFold rest (some (secondField l)) ps au co ts
    else if "parent ".data.isPrefixOf l then
      commitHeaderFold rest th (ps ++ [secondField l]) au co ts
    else if "author ".data.isPrefixOf l then
      match rsplit2 (l.drop 7) with
      | a :: t :: _ =>
        match decNat? t with
        | some n => commitHeaderFold rest th ps (some a) co (some n)
        | none => none
      | _ => none
    else if "committer ".data.isPrefixOf l then
      commitHeaderFold rest th ps au (some (secondField l)) ts
    else
      commitHeaderFold rest th ps au co ts

/-- `Commit.from_content`: split into lines, process header lines up to the
first blank line (all lines when none is blank, in which case the message
is the whole content, mirroring `message_start = 0`), and require a bound
`timestamp` (otherwise the constructor call raises `NameError`). -/
def commit_from_content (b : Bytes) : Option ParsedCommit :=
  let lines := splitOnC '\n' (bytesStr b)
  let hdr := lines.takeWhile (· ≠ [])
  let msgLines :=
    match lines.dropWhile (· ≠ []) with
    | [] => lines
    | _ :: rest => rest
  match commitHeaderFold hdr none [] none none none with
  | none => none
  | some (th, ps, au, co, some n) => some ⟨th, ps, au, co, joinLines msgLines, n⟩
  | some (_, _, _, _, none) => none

/-! ## The object store and repository state (`Repository.py` / `main.py`) -/

/-- The object directory keyed by full hex hash (the two-level
`objects/<2 hex>/<38 hex>` layout collapses to the 40-hex key). -/
abbrev Store := List (Str × Bytes)

/-- Association-list lookup, the model of both Python `dict` reads and of
probing one object file. -/
def lookupA {κ β : Type} [DecidableEq κ] : List (κ × β) → κ → Option β
  | [], _ => none
  | (k, v) :: t, q => if k = q then some v else lookupA t q

/-- Python `dict` assignment `d[k] = v`: replace in place when the key
exists, append otherwise. -/
def dinsert {κ β : Type} [DecidableEq κ] : List (κ × β) → κ → β → List (κ × β)
  | [], k, v => [(k, v)]
  | (k', v') :: t, k, v => if k' = k then (k, v) :: t else (k', v') :: dinsert t k v

/-- `Repository.store_object`: hash, then write the serialized bytes only
when no object file already exists under that hash. -/
def storePut (sha1 : Bytes → Str) (compress : Bytes → Bytes) (st : Store) (o : GitObj) :
    Store × Str :=
  let h := objHashHex sha1 o
  match lookupA st h with
  | some _ => (st, h)
  | none => ((h, gitSerialize compress o) :: st, h)

/-- `Repository.load_object`: `none` when the object file is missing
(`FileNotFoundError`) or `GitObject.deserialize` raises. -/
def load_object (decompress : Bytes → Option Bytes) (st : Store) (h : Str) : Option GitObj :=
  match lookupA st h with
  | none => none
  | some b => gitDeserialize decompress b

/-- The persisted repository state: object store, `refs/heads` files (raw
contents), the `HEAD` file, the staging index (the JSON layer of
`load_index`/`save_index` is abstracted to the mapping itself), and the
working directory as its regular files and its directories. -/
structure Repo where
  store : Store
  refsHeads : List (Str × Str)
  headFile : Option Str
  indexFile : List (Str × Str)
  wdFiles : List (Str × Bytes)
  wdDirs : List Str
deriving DecidableEq

/-- `Repository.get_current_branch`. -/
def get_current_branch (r : Repo) : Str :=
  match r.headFile with
  | none => "master".data
  | some s =>
    let t := trimWS s
    if "ref: refs/heads/".data.isPrefixOf t then t.drop 16 else "HEAD".data

/-- `Repository.get_branch_commit`: the stripped branch-file text, `none`
when the file is missing. -/
def get_branch_commit (r : Repo) (b : Str) : Option Str :=
  (lookupA r.refsHeads b).map trimWS

/-- `Repository.set_branch_commit`: write `commit_hash + "\n"`. -/
def set_branch_commit (r : Repo) (b h : Str) : Repo :=
  ⟨r.store, dinsert r.refsHeads b (h ++ ['\n']), r.headFile, r.indexFile, r.wdFiles, r.wdDirs⟩

/-- Python truthiness of an optional string (`None` and `""` are falsy). -/
def truthyOS : Option Str → Bool
  | none => false
  | some s => !s.isEmpty

/-- `store_object` lifted to the repository state. -/
def repoStorePut (sha1 : Bytes → Str) (compress : Bytes → Bytes) (r : Repo) (o : GitObj) :
    Repo × Str :=
  let p := storePut sha1 compress r.store o
  (⟨p.1, r.refsHeads, r.headFile, r.indexFile, r.wdFiles, r.wdDirs⟩, p.2)

/-! ## The tree builder (`Repository.create_tree_from_index`) -/

/-- A value of the nested mapping the index is regrouped into: a blob hash
at a leaf or a nested directory mapping. -/
inductive NVal where
  | str (h : Str)
  | dict (d : List (Str × NVal))

/-- The nested directory mapping keyed by path segment. -/
abbrev NDict := List (Str × NVal)

/-- Navigation and final assignment for one multi-segment path below its
first segment: `current = current[part] or fresh dict` along
`parts[1:-1]`, then `current[parts[-1]] = blob_hash`.  `none` models the
`TypeError` Python raises whenever the navigation meets a string where a
mapping is needed. -/
def insertSub : NDict → List Str → Str → Option NDict
  | _, [], _ => none
  | d, [last], h => some (dinsert d last (.str h))
  | d, p :: q :: rest, h =>
    match
      (match lookupA d p with
       | none => some []
       | some (.str _) => none
       | some (.dict s) => some s) with
    | none => none
    | some child =>
      match insertSub child (q :: rest) h with
      | none => none
      | some c2 => some (dinsert d p (.dict c2))

/-- One step of the partitioning loop of `create_tree_from_index`:
single-segment paths go to `files`, the rest are threaded into `dirs`. -/
def buildRootStep (acc : Option (List (Str × Str) × List (Str × NDict))) (kv : Str × Str) :
    Option (List (Str × Str) × List (Str × NDict)) :=
  match acc with
  | none => none
  | some (files, dirs) =>
    match splitOnC '/' kv.1 with
    | [] => none
    | [p] => some (dinsert files p kv.2, dirs)
    | p :: q :: rest =>
      match insertSub ((lookupA dirs p).getD []) (q :: rest) kv.2 with
      | none => none
      | some c2 => some (files, dinsert dirs p c2)

/-- The partitioning loop over all index items, in index order. -/
def buildRootDicts (index : List (Str × Str)) :
    Option (List (Str × Str) × List (Str × NDict)) :=
  index.foldl buildRootStep (some ([], []))

/-- `root_entries = dict(files)` followed by inserting every directory
group. -/
def rootEntriesOf (files : List (Str × Str)) (dirs : List (Str × NDict)) : NDict :=
  dirs.foldl (fun re p => dinsert re p.1 (.dict p.2))
    (files.map (fun p => (p.1, NVal.str p.2)))

mutual

/-- The entry loop of `create_tree_recursive`, one item at a time. -/
def ctrEntries (sha1 : Bytes → Str) (compress : Bytes → Bytes) :
    NDict → Store → Store × List TEntry
  | [], st => (st, [])
  | (n, v) :: t, st =>
    let q := ctrItem sha1 compress n v st
    let p := ctrEntries sha1 compress t q.1
    (p.1, q.2 :: p.2)

/-- One item of the loop: a string value adds a `("100644", name, hash)`
entry; a nested mapping is built and stored recursively — the inlined
`storePut … (treeObj …)` is the body of the recursive call to
`create_tree_recursive`, packaged below as `create_tree_rec` — and adds a
`("40000", name, subtree_hash)` entry. -/
def ctrItem (sha1 : Bytes → Str) (compress : Bytes → Bytes) :
    Str → NVal → Store → Store × TEntry
  | n, .str h, st => (st, ("100644".data, n, h))
  | n, .dict sub, st =>
    let q0 := ctrEntries sha1 compress sub st
    let q := storePut sha1 compress q0.1 (treeObj q0.2)
    (q.1, ("40000".data, n, q.2))

end

/-- `create_tree_recursive`: build the entries of one nested mapping
(storing subtrees as they are met) and store the resulting tree. -/
def create_tree_rec (sha1 : Bytes → Str) (compress : Bytes → Bytes)
    (d : NDict) (st : Store) : Store × Str :=
  let p := ctrEntries sha1 compress d st
  storePut sha1 compress p.1 (treeObj p.2)

/-- `Repository.create_tree_from_index` as a function of the index mapping
and the object store; an empty index stores the empty tree, `none` models
the `TypeError` of a conflicting path layout. -/
def create_tree_from_index (sha1 : Bytes → Str) (compress : Bytes → Bytes)
    (index : List (Str × Str)) (st : Store) : Option (Store × Str) :=
  if index = [] then some (storePut sha1 compress st (treeObj []))
  else
    match buildRootDicts index with
    | none => none
    | some (files, dirs) =>
      some (create_tree_rec sha1 compress (rootEntriesOf files dirs) st)

/-! ## Flattening trees back to an index (`Repository.build_index_from_tree`) -/

/-- Inserting every pair of `sub` into `acc`, Python `index.update(sub)`. -/
def updateD (acc sub : List (Str × Str)) : List (Str × Str) :=
  sub.foldl (fun a kv => dinsert a kv.1 kv.2) acc

/-- The entry loop of `build_index_from_tree`: `mode.startswith("100")`
records a file, `mode.startswith("400")` merges the recursive sub-index;
the recursive call is passed in as `f`. -/
def buildIdxEntries (f : Str → Str → List (Str × Str)) :
    List TEntry → Str → List (Str × Str) → List (Str × Str)
  | [], _, acc => acc
  | (m, n, h) :: rest, pfx, acc =>
    if "100".data.isPrefixOf m then
      buildIdxEntries f rest pfx (dinsert acc (pfx ++ n) h)
    else if "400".data.isPrefixOf m then
      buildIdxEntries f rest pfx (updateD acc (f h (pfx ++ n ++ "/".data)))
    else
      buildIdxEntries f rest pfx acc

/-- `Repository.build_index_from_tree` with fuel bounding the recursion
depth; a failing `load_object` or `Tree.from_content` is caught by the
`except` and yields the empty mapping for that subtree. -/
def build_index_F (decompress : Bytes → Option Bytes) (st : Store) :
    Nat → Str → Str → List (Str × Str)
  | 0, _, _ => []
  | fu + 1, h, pfx =>
    match load_object decompress st h with
    | none => []
    | some o =>
      match tree_from_content o.content with
      | none => []
      | some es => buildIdxEntries (build_index_F decompress st fu) es pfx []

/-! ## Commit (`Repository.commit`) -/

/-- `Repository.commit` as a state transformer.  The outer `Option` is an
uncaught exception (a conflicting index layout, or an unreadable parent
commit); the inner `Option Str` is the return value: `none` for "nothing
to commit", otherwise the new commit hash.  The wall-clock timestamp is a
parameter. -/
def commitOp (sha1 : Bytes → Str) (compress : Bytes → Bytes)
    (decompress : Bytes → Option Bytes) (r : Repo) (message author : Str) (ts : Nat) :
    Option (Repo × Option Str) :=
  match create_tree_from_index sha1 compress r.indexFile r.store with
  | none => none
  | some (st1, treeHash) =>
    let r1 : Repo := ⟨st1, r.refsHeads, r.headFile, r.indexFile, r.wdFiles, r.wdDirs⟩
    let branch := get_current_branch r1
    let parent? := get_branch_commit r1 branch
    if r1.indexFile = [] then some (r1, none)
    else
      match
        (match parent? with
         | some p =>
           if !p.isEmpty then
             match load_object decompress r1.store p with
             | none => none
             | some po =>
               match commit_from_content po.content with
               | none => none
               | some pc => some (pc.treeHash = some treeHash : Bool)
           else some false
         | none => some (false : Bool)) with
      | none => none
      | some true => some (r1, none)
      | some false =>
        let parents : List Str :=
          match parent? with
          | some p => if !p.isEmpty then [p] else []
          | none => []
        let cobj : GitObj := ⟨"commit".data,
          commit_serialize ⟨treeHash, parents, author, author, message, ts⟩⟩
        let p2 := repoStorePut sha1 compress r1 cobj
        let r3 := set_branch_commit p2.1 branch p2.2
        some (⟨r3.store, r3.refsHeads, r3.headFile, [], r3.wdFiles, r3.wdDirs⟩, some p2.2)

/-! ## Log (`Repository.log`) -/

/-- The `while commit_hash and count < max_count` loop of `Repository.log`,
returning the hashes printed.  An unreadable or unparsable commit raises
out of `log`, so nothing further is yielded. -/
def logWalkF (decompress : Bytes → Option Bytes) (st : Store) : Nat → Str → List Str
  | 0, _ => []
  | fu + 1, h =>
    if h.isEmpty then []
    else
      match load_object decompress st h with
      | none => []
      | some o =>
        match commit_from_content o.content with
        | none => []
        | some pc =>
          h :: (match pc.parents with
                | [] => []
                | p :: _ => logWalkF decompress st fu p)

/-- `Repository.log`: nothing when the current branch has no (truthy)
commit, else the walk bounded by `max_count`. -/
def logOp (decompress : Bytes → Option Bytes) (r : Repo) (maxCount : Nat) : List Str :=
  match get_branch_commit r (get_current_branch r) with
  | none => []
  | some h => if h.isEmpty then [] else logWalkF decompress r.store maxCount h

/-! ## Checkout (`Repository.checkout` and helpers) -/

/-- Python `set.add` on a deduplicated list model of a set. -/
def setAdd (l : List Str) (x : Str) : List Str := if x ∈ l then l else l ++ [x]

/-- Python `set.update`. -/
def setUnion (l m : List Str) : List Str := m.foldl setAdd l

/-- The entry loop of `get_files_from_tree_recursive` with the recursive
call passed in as `f`. -/
def gffEntries (f : Str → Str → List Str) : List TEntry → Str → List Str → List Str
  | [], _, acc => acc
  | (m, n, h) :: rest, pfx, acc =>
    if "100".data.isPrefixOf m then gffEntries f rest pfx (setAdd acc (pfx ++ n))
    else if "400".data.isPrefixOf m then
      gffEntries f rest pfx (setUnion acc (f h (pfx ++ n ++ "/".data)))
    else gffEntries f rest pfx acc

/-- `Repository.get_files_from_tree_recursive` with fuel; every failure is
caught and yields the files collected so far (the empty set, since the
loop has not started when loading or parsing fails). -/
def get_files_F (decompress : Bytes → Option Bytes) (st : Store) :
    Nat → Str → Str → List Str
  | 0, _, _ => []
  | fu + 1, h, pfx =>
    match load_object decompress st h with
    | none => []
    | some o =>
      match tree_from_content o.content with
      | none => []
      | some es => gffEntries (get_files_F decompress st fu) es pfx []

/-- Writing one working-directory file (`file_path.write_bytes`). -/
def wdWrite (r : Repo) (p : Str) (b : Bytes) : Repo :=
  ⟨r.store, r.refsHeads, r.headFile, r.indexFile, dinsert r.wdFiles p b, r.wdDirs⟩

/-- `file_path.mkdir(exist_ok=True)` on the working directory. -/
def wdMkdir (r : Repo) (p : Str) : Repo :=
  ⟨r.store, r.refsHeads, r.headFile, r.indexFile, r.wdFiles,
    if p ∈ r.wdDirs then r.wdDirs else r.wdDirs ++ [p]⟩

/-- Joining a directory path and an entry name (the root is `[]`). -/
def pathJoin (path n : Str) : Str := if path.isEmpty then n else path ++ '/' :: n

/-- The entry loop of `restore_tree`: a failing blob load aborts the rest
of this level's loop (the local `except` catches it after partial work);
directory entries create the directory and recurse through `f`, whose own
failures are caught one level down. -/
def rtEntries (decompress : Bytes → Option Bytes) (f : Str → Str → Repo → Repo) :
    List TEntry → Str → Repo → Repo
  | [], _, r => r
  | (m, n, h) :: rest, path, r =>
    if "100".data.isPrefixOf m then
      match load_object decompress r.store h with
      | none => r
      | some bo => rtEntries decompress f rest path (wdWrite r (pathJoin path n) bo.content)
    else if "400".data.isPrefixOf m then
      rtEntries decompress f rest path (f h (pathJoin path n) (wdMkdir r (pathJoin path n)))
    else
      rtEntries decompress f rest path r

/-- `Repository.restore_tree` with fuel; load or parse failures at this
level are caught and leave the state as it stands. -/
def restore_tree_F (decompress : Bytes → Option Bytes) : Nat → Str → Str → Repo → Repo
  | 0, _, _, r => r
  | fu + 1, h, path, r =>
    match load_object decompress r.store h with
    | none => r
    | some o =>
      match tree_from_content o.content with
      | none => r
      | some es => rtEntries decompress (restore_tree_F decompress fu) es path r

/-- Whether a working-tree directory is empty (`not any(iterdir())`). -/
def isEmptyDir (r : Repo) (p : Str) : Bool :=
  !(r.wdFiles.any (fun kv => (p ++ "/".data).isPrefixOf kv.1) ||
    r.wdDirs.any (fun q => decide (q ≠ p) && (p ++ "/".data).isPrefixOf q))

/-- One round of the cleanup loop of `restore_working_directory`: unlink a
file, or remove a directory only when it is empty. -/
def clearOneF (r : Repo) (p : Str) : Repo :=
  if (lookupA r.wdFiles p).isSome then
    ⟨r.store, r.refsHeads, r.headFile, r.indexFile,
      r.wdFiles.filter (fun kv => kv.1 ≠ p), r.wdDirs⟩
  else if p ∈ r.wdDirs then
    if isEmptyDir r p then
      ⟨r.store, r.refsHeads, r.headFile, r.indexFile, r.wdFiles,
        r.wdDirs.filter (fun q => q ≠ p)⟩
    else r
  else r

/-- `Repository.restore_working_directory`: return unchanged when the
target branch has no truthy commit; otherwise clear the old files in
sorted order, load the target commit (an unreadable one raises: `none`),
restore its tree when truthy, and clear the index. -/
def restore_working_directory (decompress : Bytes → Option Bytes) (fuel : Nat)
    (r : Repo) (branch : Str) (toClear : List Str) : Option Repo :=
  match get_branch_commit r branch with
  | none => some r
  | some tg =>
    if tg.isEmpty then some r
    else
      let r1 := (List.insertionSort strLE toClear).foldl clearOneF r
      match load_object decompress r1.store tg with
      | none => none
      | some co =>
        match commit_from_content co.content with
        | none => none
        | some pc =>
          let r2 :=
            match pc.treeHash with
            | some th => if !th.isEmpty then restore_tree_F decompress fuel th [] r1 else r1
            | none => r1
          some ⟨r2.store, r2.refsHeads, r2.headFile, [], r2.wdFiles, r2.wdDirs⟩

/-- The observable outcome of `Repository.checkout`: refused because the
index is dirty, refused because the branch is missing (without `-b`), or
switched — carrying whether the soft "No commits yet, cannot create a new
branch" message was printed on the way. -/
inductive CkOutcome where
  | dirty
  | missingBranch
  | switched (softNoCommit : Bool)
deriving DecidableEq

/-- `Repository.checkout`.  `none` models the uncaught exception from
`restore_working_directory` on an unreadable target commit; every other
path completes with an outcome.  Note the create-branch path falls through
to rewriting `HEAD` even when there is no commit to branch from. -/
def checkoutOp (decompress : Bytes → Option Bytes) (fuel : Nat) (r : Repo)
    (branch : Str) (createBranch : Bool) : Option (Repo × CkOutcome) :=
  if r.indexFile ≠ [] then some (r, .dirty)
  else
    let prevC? := get_branch_commit r (get_current_branch r)
    let toClear : List Str :=
      match prevC? with
      | none => []
      | some pc =>
        if pc.isEmpty then []
        else
          match load_object decompress r.store pc with
          | none => []
          | some po =>
            match commit_from_content po.content with
            | none => []
            | some pcd =>
              match pcd.treeHash with
              | none => []
              | some th => if th.isEmpty then [] else get_files_F decompress r.store fuel th []
    let proceed : Repo → Bool → Option (Repo × CkOutcome) := fun r2 soft =>
      let r3 : Repo := ⟨r2.store, r2.refsHeads,
        some ("ref: refs/heads/".data ++ branch ++ ['\n']),
        r2.indexFile, r2.wdFiles, r2.wdDirs⟩
      match restore_working_directory decompress fuel r3 branch toClear with
      | none => none
      | some r4 => some (r4, .switched soft)
    match lookupA r.refsHeads branch with
    | some _ => proceed r false
    | none =>
      if createBranch then
        match prevC? with
        | some pc =>
          if !pc.isEmpty then proceed (set_branch_commit r branch pc) false
          else proceed r true
        | none => proceed r true
      else some (r, .missingBranch)

/-! ## Status (`Repository.status` in `Repository.py` and in `main.py`) -/

/-- The hashes of the on-disk files, as `status` computes `working_files`. -/
def workingHashes (sha1 : Bytes → Str) (r : Repo) : List (Str × Str) :=
  r.wdFiles.map (fun kv => (kv.1, objHashHex sha1 ⟨"blob".data, kv.2⟩))

/-- The `last_index_files` mapping of `status`: the flattened tree of the
current branch's head commit, empty on any failure. -/
def lastCommitFiles (decompress : Bytes → Option Bytes) (fuel : Nat) (r : Repo)
    (branch : Str) : List (Str × Str) :=
  match get_branch_commit r branch with
  | none => []
  | some c =>
    if c.isEmpty then []
    else
      match load_object decompress r.store c with
      | none => []
      | some o =>
        match commit_from_content o.content with
        | none => []
        | some pc =>
          match pc.treeHash with
          | none => []
          | some th => if th.isEmpty then [] else build_index_F decompress r.store fuel th []

/-- What `Repository.py`'s `status` accumulates before printing: staged
changes, unstaged changes (both as `(label, path)`), untracked paths. -/
structure StatusR where
  staged : List (Str × Str)
  unstaged : List (Str × Str)
  untracked : List Str
deriving DecidableEq

/-- The `status` method of `Repository.py`.  The iteration order of the
Python `set(index) | set(last)` union is unspecified; it is modelled as
index keys then new last-commit keys, which does not affect membership. -/
def statusRepoVer (sha1 : Bytes → Str) (decompress : Bytes → Option Bytes) (fuel : Nat)
    (r : Repo) : StatusR :=
  let index := r.indexFile
  let last := lastCommitFiles decompress fuel r (get_current_branch r)
  let working := workingHashes sha1 r
  let allKeys := index.map Prod.fst ++
    (last.map Prod.fst).filter (fun k => (lookupA index k).isNone)
  let staged := allKeys.foldl (fun acc p =>
      let ih := lookupA index p
      let lh := lookupA last p
      if truthyOS ih && !truthyOS lh then acc ++ [("new file".data, p)]
      else if truthyOS ih && truthyOS lh && decide (ih ≠ lh) then
        acc ++ [("modified file".data, p)]
      else acc) []
  let unstagedM := working.foldl (fun acc kv =>
      match lookupA index kv.1 with
      | some ih => if kv.2 ≠ ih then acc ++ [("modified file".data, kv.1)] else acc
      | none => acc) []
  let unstaged := index.foldl (fun acc kv =>
      if (lookupA working kv.1).isNone then acc ++ [("deleted file".data, kv.1)]
      else acc) unstagedM
  let untracked := working.foldl (fun acc kv =>
      if (lookupA index kv.1).isNone ∧ (lookupA last kv.1).isNone then acc ++ [kv.1]
      else acc) []
  ⟨staged, unstaged, untracked⟩

/-- What `main.py`'s `status` accumulates: staged changes, unstaged
modified paths, untracked paths, and its own post-commit deleted paths. -/
structure StatusM where
  staged : List (Str × Str)
  unstagedPaths : List Str
  untracked : List Str
  deletedPaths : List Str
deriving DecidableEq

/-- The `status` function of `main.py`: unstaged holds only modified
paths, and the deleted category is computed from the last commit, not from
the index. -/
def statusMainVer (sha1 : Bytes → Str) (decompress : Bytes → Option Bytes) (fuel : Nat)
    (r : Repo) : StatusM :=
  let index := r.indexFile
  let last := lastCommitFiles decompress fuel r (get_current_branch r)
  let working := workingHashes sha1 r
  let allKeys := index.map Prod.fst ++
    (last.map Prod.fst).filter (fun k => (lookupA index k).isNone)
  let staged := allKeys.foldl (fun acc p =>
      let ih := lookupA index p
      let lh := lookupA last p
      if truthyOS ih && !truthyOS lh then acc ++ [("new file".data, p)]
      else if truthyOS ih && truthyOS lh && decide (ih ≠ lh) then
        acc ++ [("modified file".data, p)]
      else acc) []
  let unstagedPaths := working.foldl (fun acc kv =>
      match lookupA index kv.1 with
      | some ih => if kv.2 ≠ ih then acc ++ [kv.1] else acc
      | none => acc) []
  let untracked := working.foldl (fun acc kv =>
      if (lookupA index kv.1).isNone ∧ (lookupA last kv.1).isNone then acc ++ [kv.1]
      else acc) []
  let deletedPaths := last.foldl (fun acc kv =>
      if (lookupA index kv.1).isNone ∧ (lookupA working kv.1).isNone then acc ++ [kv.1]
      else acc) []
  ⟨staged, unstagedPaths, untracked, deletedPaths⟩

/-! ## Concrete instantiations of the abstract hash and compression, used
only by witnesses and counterexamples -/

/-- Forty lowercase hex digits of a number, most significant first. -/
def hex40OfNat (n : Nat) : Str := go 40 n
where
  go : Nat → Nat → Str
    | 0, _ => []
    | k + 1, m => go k (m / 16) ++ [Nat.digitChar (m % 16)]

/-- A stand-in digest with the right output shape; the witnesses check by
computation that it is collision-free on the handful of payloads they
involve. -/
def toySha (b : Bytes) : Str := hex40OfNat (b.foldl (fun a x => a * 521 + x + 1) 1)

/-- Identity stand-in for `zlib.compress`. -/
def idCompress (b : Bytes) : Bytes := b

/-- Identity stand-in for `zlib.decompress`, satisfying the lossless law. -/
def idDecompress (b : Bytes) : Option Bytes := some b

/-! ## Pure companions of the tree builder.  The hash
`create_tree_recursive` returns is independent of the store it threads, so
the build admits store-free companions computing the entries, the hash and
the list of tree objects it passes to `store_object`; the bridge lemmas
below prove them equal to the threaded versions. -/

mutual

/-- The entries `create_tree_recursive` gives one nested mapping. -/
def treeEntriesOf (sha1 : Bytes → Str) : NDict → List TEntry
  | [] => []
  | (n, v) :: t => treeEntryItem sha1 n v :: treeEntriesOf sha1 t

/-- The entry one named value contributes. -/
def treeEntryItem (sha1 : Bytes → Str) : Str → NVal → TEntry
  | n, .str h => ("100644".data, n, h)
  | n, .dict sub => ("40000".data, n, objHashHex sha1 (treeObj (treeEntriesOf sha1 sub)))

end

/-- The hash `create_tree_recursive` returns for one nested mapping. -/
def treeHashOfDict (sha1 : Bytes → Str) (d : NDict) : Str :=
  objHashHex sha1 (treeObj (treeEntriesOf sha1 d))

mutual

/-- The subtree objects contributed by the entries of one nested mapping
(each subtree's own objects, children first, then the subtree's tree). -/
def treeObjsSub (sha1 : Bytes → Str) : NDict → List GitObj
  | [] => []
  | (_, v) :: t => treeObjsItem sha1 v ++ treeObjsSub sha1 t

/-- The tree objects one value contributes: none for a blob leaf, the
recursively stored trees for a nested mapping. -/
def treeObjsItem (sha1 : Bytes → Str) : NVal → List GitObj
  | .str _ => []
  | .dict sub => treeObjsSub sha1 sub ++ [treeObj (treeEntriesOf sha1 sub)]

end

/-- Every tree object `create_tree_recursive` passes to `store_object`
while building one nested mapping (children first, the mapping's own tree
last). -/
def treeObjsOf (sha1 : Bytes → Str) (d : NDict) : List GitObj :=
  treeObjsSub sha1 d ++ [treeObj (treeEntriesOf sha1 d)]

mutual

/-- Flattening a nested mapping to segment-list keyed pairs: the leaves of
the mapping with their segment paths. -/
def flatSegs : NDict → List (List Str × Str)
  | [] => []
  | (n, v) :: t => flatItem n v ++ flatSegs t

/-- The flattened pairs one named value contributes. -/
def flatItem : Str → NVal → List (List Str × Str)
  | n, .str h => [([n], h)]
  | n, .dict sub => (flatSegs sub).map (fun q => (n :: q.1, q.2))

end

/-- The mode `create_tree_recursive` assigns to each kind of value. -/
def modeFor : NVal → Str
  | .str _ => "100644".data
  | .dict _ => "40000".data

/-! ## Generic lemmas about the byte and string primitives -/

theorem bytesStr_strBytes (s : Str) : bytesStr (strBytes s) = s := by
  induction s with
  | nil => rfl
  | cons c t ih => simpa [bytesStr, strBytes, Char.ofNat_toNat] using ih

/-- Decimal digit characters, described through their code points so that
all the separator arguments (not NUL, not space, not slash, not newline)
read off arithmetically. -/
def DigitCh (ch : Char) : Prop := 48 ≤ ch.toNat ∧ ch.toNat ≤ 57

theorem digitChar_digit (m : Nat) (h : m < 10) : DigitCh (Nat.digitChar m) := by
  interval_cases m <;> exact ⟨by decide, by decide⟩

theorem toDigitsCore_all (P : Char → Prop) (hdig : ∀ m, m < 10 → P (Nat.digitChar m)) :
    ∀ (fuel n : Nat) (ds : List Char), (∀ ch ∈ ds, P ch) →
      ∀ ch ∈ Nat.toDigitsCore 10 fuel n ds, P ch := by
  intro fuel
  induction fuel with
  | zero => intro n ds hds; simpa [Nat.toDigitsCore] using hds
  | succ fu ih =>
    intro n ds hds ch hch
    rw [Nat.toDigitsCore] at hch
    by_cases h10 : n / 10 = 0
    · simp only [h10, if_pos rfl] at hch
      rcases List.mem_cons.mp hch with h | h
      · exact h ▸ hdig _ (Nat.mod_lt _ (by omega))
      · exact hds _ h
    · simp only [if_neg h10] at hch
      refine ih _ _ ?_ _ hch
      intro c hc
      rcases List.mem_cons.mp hc with h | h
      · exact h ▸ hdig _ (Nat.mod_lt _ (by omega))
      · exact hds _ h

theorem natDecStr_all (n : Nat) : ∀ ch ∈ natDecStr n, DigitCh ch := by
  intro ch hch
  exact toDigitsCore_all DigitCh digitChar_digit (n + 1) n [] (by simp) ch hch

theorem splitOnC_ne_nil (c : Char) (s : Str) : splitOnC c s ≠ [] := by
  induction s with
  | nil => simp [splitOnC]
  | cons x xs ih =>
    rw [splitOnC]
    rcases h : splitOnC c xs with _ | ⟨p, t⟩
    · simp
    · by_cases hx : x = c <;> simp [hx]

theorem splitOnC_of_not_mem (c : Char) (s : Str) (h : ∀ x ∈ s, x ≠ c) :
    splitOnC c s = [s] := by
  induction s with
  | nil => rfl
  | cons x xs ih =>
    rw [splitOnC]
    rw [ih (fun y hy => h y (by simp [hy]))]
    simp [h x (by simp)]

theorem splitOnC_append_cons (c : Char) (a b : Str) (ha : ∀ x ∈ a, x ≠ c) :
    splitOnC c (a ++ c :: b) = a :: splitOnC c b := by
  induction a with
  | nil =>
    rw [List.nil_append, splitOnC]
    rcases h : splitOnC c b with _ | ⟨p, t⟩
    · exact absurd h (splitOnC_ne_nil c b)
    · simp
  | cons x xs ih =>
    have hx : x ≠ c := ha x (by simp)
    rw [List.cons_append, splitOnC, ih (fun y hy => ha y (by simp [hy]))]
    simp [hx]

theorem joinC_splitOnC (c : Char) (s : Str) : joinC c (splitOnC c s) = s := by
  induction s with
  | nil => rfl
  | cons x xs ih =>
    rw [splitOnC]
    rcases h : splitOnC c xs with _ | ⟨p, t⟩
    · exact absurd h (splitOnC_ne_nil c xs)
    · rw [h] at ih
      by_cases hx : x = c
      · subst hx
        simp only [if_pos rfl, joinC]
        exact congrArg (x :: ·) ih
      · simp only [if_neg hx]
        cases t with
        | nil => simpa [joinC] using congrArg (x :: ·) ih
        | cons q u => simpa [joinC] using congrArg (x :: ·) ih

theorem splitOnC_joinC (c : Char) (ps : List Str) (hne : ps ≠ [])
    (hp : ∀ p ∈ ps, ∀ x ∈ p, x ≠ c) : splitOnC c (joinC c ps) = ps := by
  induction ps with
  | nil => exact absurd rfl hne
  | cons p t ih =>
    cases t with
    | nil => simpa [joinC] using splitOnC_of_not_mem c p (hp p (by simp))
    | cons q u =>
      have : joinC c (p :: q :: u) = p ++ c :: joinC c (q :: u) := rfl
      rw [this, splitOnC_append_cons c p _ (hp p (by simp)),
        ih (by simp) (fun r hr => hp r (by simp [hr]))]

theorem findIdx0_append (hdr c : Bytes) (h : ∀ x ∈ hdr, x ≠ 0) (i : Nat) :
    List.findIdx? (fun x => x = 0) (hdr ++ 0 :: c) i = some (i + hdr.length) := by
  induction hdr generalizing i with
  | nil => simp [List.findIdx?_cons]
  | cons y t ih =>
    have hy : y ≠ 0 := h y (by simp)
    rw [List.cons_append, List.findIdx?_cons]
    have hdy : (decide (y = 0)) = false := by simp [hy]
    rw [hdy]
    simp only [Bool.false_eq_true, if_false]
    rw [ih (fun x hx => h x (by simp [hx])) (i + 1)]
    simp only [List.length_cons, Option.some.injEq]
    omega

theorem strBytes_all_ne_zero (s : Str) (h : ∀ ch ∈ s, ch.toNat ≠ 0) :
    ∀ x ∈ strBytes s, x ≠ 0 := by
  intro x hx
  rcases List.mem_map.mp hx with ⟨ch, hch, rfl⟩
  exact h ch hch

/-- Splitting the canonical header of an object payload. -/
theorem payload_split (k : Str) (content : Bytes) :
    objHeader k content ++ content =
      strBytes (k ++ ' ' :: natDecStr content.length) ++ 0 :: content := by
  simp [objHeader]

/-- Deserializing a losslessly compressed payload with a NUL-free,
space-free kind recovers the object: no validation beyond the two-field
split happens. -/
theorem gitDeserialize_gitSerialize (compress : Bytes → Bytes)
    (decompress : Bytes → Option Bytes) (rt : ∀ b, decompress (compress b) = some b)
    (o : GitObj) (hkind : ∀ ch ∈ o.kind, ch.toNat ≠ 0 ∧ ch ≠ ' ') :
    gitDeserialize decompress (gitSerialize compress o) = some o := by
  have hdig : ∀ ch ∈ natDecStr o.content.length, DigitCh ch := natDecStr_all _
  have hhdrne : ∀ ch ∈ o.kind ++ ' ' :: natDecStr o.content.length, ch.toNat ≠ 0 := by
    intro ch hch
    rcases List.mem_append.mp hch with h | h
    · exact (hkind ch h).1
    · rcases List.mem_cons.mp h with h | h
      · rw [h]; decide
      · obtain ⟨h1, _⟩ := hdig ch h
        omega
  have hbytes : ∀ x ∈ strBytes (o.kind ++ ' ' :: natDecStr o.content.length), x ≠ 0 :=
    strBytes_all_ne_zero _ hhdrne
  have hfind := findIdx0_append (strBytes (o.kind ++ ' ' :: natDecStr o.content.length))
    o.content hbytes 0
  have htake : (strBytes (o.kind ++ ' ' :: natDecStr o.content.length) ++
      0 :: o.content).take (strBytes (o.kind ++ ' ' :: natDecStr o.content.length)).length =
      strBytes (o.kind ++ ' ' :: natDecStr o.content.length) := List.take_left _ _
  have hdrop : (strBytes (o.kind ++ ' ' :: natDecStr o.content.length) ++
      0 :: o.content).drop ((strBytes (o.kind ++ ' ' :: natDecStr o.content.length)).length + 1) =
      o.content := by
    rw [show strBytes (o.kind ++ ' ' :: natDecStr o.content.length) ++ 0 :: o.content =
      (strBytes (o.kind ++ ' ' :: natDecStr o.content.length) ++ [0]) ++ o.content by simp]
    rw [show (strBytes (o.kind ++ ' ' :: natDecStr o.content.length)).length + 1 =
      (strBytes (o.kind ++ ' ' :: natDecStr o.content.length) ++ [0]).length by simp]
    exact List.drop_left _ _
  have hsplit : splitOnC ' ' (bytesStr (strBytes (o.kind ++ ' ' ::
      natDecStr o.content.length))) = [o.kind, natDecStr o.content.length] := by
    rw [bytesStr_strBytes]
    rw [splitOnC_append_cons ' ' o.kind _ (fun x hx => (hkind x hx).2)]
    rw [splitOnC_of_not_mem ' ' _ (by
      intro x hx hc
      obtain ⟨h1, h2⟩ := hdig x hx
      rw [hc] at h1 h2
      have h32 : (' ' : Char).toNat = 32 := rfl
      omega)]
  simp only [gitDeserialize, gitSerialize, rt, objPayload, payload_split, hfind,
    Nat.zero_add, htake, hdrop, hsplit]

/-- The claim of C7, stated for every content and every lossless
compression pair. -/
theorem blob_roundtrip (compress : Bytes → Bytes) (decompress : Bytes → Option Bytes)
    (rt : ∀ b, decompress (compress b) = some b) (c : Bytes) :
    gitDeserialize decompress (gitSerialize compress ⟨"blob".data, c⟩) =
      some ⟨"blob".data, c⟩ :=
  gitDeserialize_gitSerialize compress decompress rt ⟨"blob".data, c⟩
    (by show ∀ ch ∈ "blob".data, ch.toNat ≠ 0 ∧ ch ≠ ' '; decide)

/-- Witness for the round-trip theorem at the identity compression pair
and a content containing a NUL byte. -/
theorem blob_roundtrip_witness :
    gitDeserialize idDecompress (gitSerialize idCompress ⟨"blob".data, [0, 255]⟩) =
      some ⟨"blob".data, [0, 255]⟩ :=
  blob_roundtrip idCompress idDecompress (fun _ => rfl) [0, 255]

/-! ## Deserialization failure modes (claim C4) -/

/-- What `GitObject.deserialize` accepts: any lossless stream with a NUL
and a two-field header — the length field and the kind are not inspected
beyond the split. -/
theorem deserialize_header_characterization (decompress : Bytes → Option Bytes)
    (data : Bytes) :
    (decompress data = none → gitDeserialize decompress data = none) ∧
    (∀ hdr rest k lenF, decompress data = some (strBytes hdr ++ 0 :: rest) →
      (∀ ch ∈ hdr, ch.toNat ≠ 0) →
      splitOnC ' ' hdr = [k, lenF] →
      gitDeserialize decompress data = some ⟨k, rest⟩) ∧
    (∀ hdr rest, decompress data = some (strBytes hdr ++ 0 :: rest) →
      (∀ ch ∈ hdr, ch.toNat ≠ 0) →
      (splitOnC ' ' hdr).length ≠ 2 →
      gitDeserialize decompress data = none) := by
  refine ⟨fun h => by simp [gitDeserialize, h], ?_, ?_⟩
  all_goals
    intro hdr rest
  · intro k lenF hdec hnz hsplit
    have hbytes : ∀ x ∈ strBytes hdr, x ≠ 0 := strBytes_all_ne_zero _ hnz
    have hfind := findIdx0_append (strBytes hdr) rest hbytes 0
    have htake : (strBytes hdr ++ 0 :: rest).take (strBytes hdr).length = strBytes hdr :=
      List.take_left _ _
    have hdrop : (strBytes hdr ++ 0 :: rest).drop ((strBytes hdr).length + 1) = rest := by
      rw [show strBytes hdr ++ 0 :: rest = (strBytes hdr ++ [0]) ++ rest by simp]
      rw [show (strBytes hdr).length + 1 = (strBytes hdr ++ [0]).length by simp]
      exact List.drop_left _ _
    simp only [gitDeserialize, hdec, hfind, Nat.zero_add, htake, hdrop,
      bytesStr_strBytes, hsplit]
  · intro hdec hnz hsplit
    have hbytes : ∀ x ∈ strBytes hdr, x ≠ 0 := strBytes_all_ne_zero _ hnz
    have hfind := findIdx0_append (strBytes hdr) rest hbytes 0
    have htake : (strBytes hdr ++ 0 :: rest).take (strBytes hdr).length = strBytes hdr :=
      List.take_left _ _
    simp only [gitDeserialize, hdec, hfind, Nat.zero_add, htake, bytesStr_strBytes]
    rcases h : splitOnC ' ' hdr with _ | ⟨a, _ | ⟨b, _ | ⟨c, t⟩⟩⟩ <;>
      simp_all

/-- Counterexample to C4 as stated: an input whose decompressed form both
declares a non-numeric length and names an unknown kind is accepted, and
an input without any NUL separator is accepted too (Python's `find`
returning `-1` silently drops the last byte of the header slice). -/
theorem deserialize_malformed_accepted :
    gitDeserialize idDecompress (strBytes "wat xy".data ++ 0 :: strBytes "cd".data) =
      some ⟨"wat".data, strBytes "cd".data⟩ ∧
    gitDeserialize idDecompress (strBytes "ab c".data) =
      some ⟨"ab".data, strBytes "ab c".data⟩ ∧
    "wat".data ≠ "blob".data ∧ "wat".data ≠ "tree".data ∧ "wat".data ≠ "commit".data := by
  refine ⟨by decide, by decide, by decide, by decide, by decide⟩

/-- Witness applying the characterization at a concrete accepted input
with a non-numeric length field. -/
theorem deserialize_header_characterization_witness :
    gitDeserialize idDecompress (strBytes "blob zz".data ++ 0 :: [9]) =
      some ⟨"blob".data, [9]⟩ :=
  (deserialize_header_characterization idDecompress
      (strBytes "blob zz".data ++ 0 :: [9])).2.1
    "blob zz".data [9] "blob".data "zz".data rfl (by decide) (by decide)

/-! ## Order lemmas for the entry sort (claim C2) -/

theorem char_toNat_inj {a b : Char} (h : a.toNat = b.toNat) : a = b := by
  have := congrArg Char.ofNat h
  rwa [Char.ofNat_toNat, Char.ofNat_toNat] at this

theorem strLtb_irrefl (a : Str) : strLtb a a = false := by
  induction a with
  | nil => rfl
  | cons x xs ih => rw [strLtb]; simp [ih]

theorem strLtb_trans (a : Str) : ∀ b c, strLtb a b = true → strLtb b c = true →
    strLtb a c = true := by
  induction a with
  | nil =>
    intro b c h1 h2
    cases b with
    | nil => simp [strLtb] at h1
    | cons y ys =>
      cases c with
      | nil => simp [strLtb] at h2
      | cons z zs => rfl
  | cons x xs ih =>
    intro b c h1 h2
    cases b with
    | nil => simp [strLtb] at h1
    | cons y ys =>
      cases c with
      | nil => simp [strLtb] at h2
      | cons z zs =>
        rw [strLtb] at h1 h2 ⊢
        by_cases hxy : x.toNat < y.toNat
        · by_cases hyz : y.toNat < z.toNat
          · simp [show x.toNat < z.toNat by omega]
          · rw [if_neg hyz] at h2
            by_cases hzy : z.toNat < y.toNat
            · rw [if_pos hzy] at h2; exact absurd h2 (by simp)
            · simp [show x.toNat < z.toNat by omega]
        · rw [if_neg hxy] at h1
          by_cases hyx : y.toNat < x.toNat
          · rw [if_pos hyx] at h1; exact absurd h1 (by simp)
          · rw [if_neg hyx] at h1
            by_cases hyz : y.toNat < z.toNat
            · simp [show x.toNat < z.toNat by omega]
            · rw [if_neg hyz] at h2
              by_cases hzy : z.toNat < y.toNat
              · rw [if_pos hzy] at h2; exact absurd h2 (by simp)
              · rw [if_neg hzy] at h2
                rw [if_neg (show ¬ x.toNat < z.toNat by omega),
                  if_neg (show ¬ z.toNat < x.toNat by omega)]
                exact ih ys zs h1 h2

theorem strLtb_connex (a : Str) : ∀ b, strLtb a b = false → strLtb b a = false →
    a = b := by
  induction a with
  | nil =>
    intro b h1 _
    cases b with
    | nil => rfl
    | cons y ys => simp [strLtb] at h1
  | cons x xs ih =>
    intro b h1 h2
    cases b with
    | nil => simp [strLtb] at h2
    | cons y ys =>
      rw [strLtb] at h1 h2
      by_cases hxy : x.toNat < y.toNat
      · rw [if_pos hxy] at h1; exact absurd h1 (by simp)
      · by_cases hyx : y.toNat < x.toNat
        · rw [if_pos hyx] at h2; exact absurd h2 (by simp)
        · rw [if_neg hxy, if_neg hyx] at h1
          rw [if_neg hyx, if_neg hxy] at h2
          rw [char_toNat_inj (show x.toNat = y.toNat by omega)]
          exact congrArg (y :: ·) (ih ys h1 h2)

theorem strLtb_asymm (a b : Str) (h : strLtb a b = true) : strLtb b a = false := by
  rcases Bool.eq_false_or_eq_true (strLtb b a) with h' | h'
  · have := strLtb_trans a b a h h'
    rw [strLtb_irrefl] at this
    exact absurd this (by simp)
  · exact h'

theorem entryLtb_irrefl (e : TEntry) : entryLtb e e = false := by
  simp [entryLtb, strLtb_irrefl]

theorem entryLtb_trans (e f g : TEntry) (h1 : entryLtb e f = true)
    (h2 : entryLtb f g = true) : entryLtb e g = true := by
  obtain ⟨m1, n1, k1⟩ := e
  obtain ⟨m2, n2, k2⟩ := f
  obtain ⟨m3, n3, k3⟩ := g
  simp only [entryLtb, Bool.or_eq_true, Bool.and_eq_true, decide_eq_true_eq] at h1 h2 ⊢
  rcases h1 with h1 | ⟨hm1, h1⟩
  · rcases h2 with h2 | ⟨hm2, h2⟩
    · exact Or.inl (strLtb_trans _ _ _ h1 h2)
    · exact Or.inl (hm2 ▸ h1)
  · rcases h2 with h2 | ⟨hm2, h2⟩
    · exact Or.inl (hm1 ▸ h2)
    · refine Or.inr ⟨hm1.trans hm2, ?_⟩
      rcases h1 with h1 | ⟨hn1, h1⟩
      · rcases h2 with h2 | ⟨hn2, h2⟩
        · exact Or.inl (strLtb_trans _ _ _ h1 h2)
        · exact Or.inl (hn2 ▸ h1)
      · rcases h2 with h2 | ⟨hn2, h2⟩
        · exact Or.inl (hn1 ▸ h2)
        · exact Or.inr ⟨hn1.trans hn2, strLtb_trans _ _ _ h1 h2⟩

theorem entryLtb_connex (e f : TEntry) (h1 : entryLtb e f = false)
    (h2 : entryLtb f e = false) : e = f := by
  obtain ⟨m1, n1, k1⟩ := e
  obtain ⟨m2, n2, k2⟩ := f
  by_cases hm : m1 = m2
  · subst hm
    by_cases hn : n1 = n2
    · subst hn
      simp [entryLtb, strLtb_irrefl] at h1 h2
      rw [strLtb_connex k1 k2 h1 h2]
    · simp [entryLtb, strLtb_irrefl, hn, Ne.symm hn] at h1 h2
      exact absurd (strLtb_connex n1 n2 h1 h2) hn
  · simp [entryLtb, hm, Ne.symm hm] at h1 h2
    exact absurd (strLtb_connex m1 m2 h1 h2) hm

theorem entryLtb_asymm (e f : TEntry) (h : entryLtb e f = true) : entryLtb f e = false := by
  rcases Bool.eq_false_or_eq_true (entryLtb f e) with h' | h'
  · have := entryLtb_trans e f e h h'
    rw [entryLtb_irrefl] at this
    exact absurd this (by simp)
  · exact h'

instance : IsTrans TEntry entryLE where
  trans := by
    intro a b c hab hbc
    rcases Bool.eq_false_or_eq_true (entryLtb c a) with h | h
    · rcases Bool.eq_false_or_eq_true (entryLtb b c) with hbc2 | hbc2
      · have := entryLtb_trans b c a hbc2 h
        exact absurd this (by rw [hab]; simp)
      · have hcb := entryLtb_connex c b hbc hbc2
        rw [hcb] at h
        exact absurd h (by rw [hab]; simp)
    · exact h

instance : IsTotal TEntry entryLE where
  total := by
    intro a b
    rcases Bool.eq_false_or_eq_true (entryLtb b a) with h | h
    · exact Or.inr (entryLtb_asymm b a h)
    · exact Or.inl h

instance : IsAntisymm TEntry entryLE where
  antisymm := by
    intro a b hab hba
    exact (entryLtb_connex b a hab hba).symm

/-- Sorted arrangements of the same entries coincide. -/
theorem insertionSort_eq_of_perm (es1 es2 : List TEntry) (hp : es1.Perm es2) :
    List.insertionSort entryLE es1 = List.insertionSort entryLE es2 :=
  List.eq_of_perm_of_sorted
    ((List.perm_insertionSort entryLE es1).trans
      (hp.trans (List.perm_insertionSort entryLE es2).symm))
    (List.sorted_insertionSort entryLE es1) (List.sorted_insertionSort entryLE es2)

/-- The claim of C2: permuting the insertion order of a tree's logical
entries changes neither the serialized byte stream nor the hash, for every
digest function. -/
theorem tree_serialization_order_independent (sha1 : Bytes → Str) (es1 es2 : List TEntry)
    (hp : es1.Perm es2) :
    serialize_entries es1 = serialize_entries es2 ∧
    objHashHex sha1 (treeObj es1) = objHashHex sha1 (treeObj es2) := by
  have hs : serialize_entries es1 = serialize_entries es2 := by
    rw [serialize_entries, serialize_entries, insertionSort_eq_of_perm es1 es2 hp]
  exact ⟨hs, by rw [objHashHex, objHashHex, treeObj, treeObj, hs]⟩

/-- Witness for C2: two concrete permuted entry lists produce the same
bytes and the same `toySha` hash. -/
theorem tree_serialization_order_independent_witness :
    serialize_entries
        [("100644".data, "b.txt".data, hex40OfNat 5), ("40000".data, "a".data, hex40OfNat 6)] =
      serialize_entries
        [("40000".data, "a".data, hex40OfNat 6), ("100644".data, "b.txt".data, hex40OfNat 5)] ∧
    objHashHex toySha (treeObj
        [("100644".data, "b.txt".data, hex40OfNat 5), ("40000".data, "a".data, hex40OfNat 6)]) =
      objHashHex toySha (treeObj
        [("40000".data, "a".data, hex40OfNat 6), ("100644".data, "b.txt".data, hex40OfNat 5)]) :=
  tree_serialization_order_independent toySha _ _ (by decide)

/-! ## Tree entry modes (claim C5) -/

/-- Counterexample to C5 as stated: the tree builder records directory
entries with mode `"40000"`, not `"040000"`; on a one-directory mapping
the only persisted entry carries `"40000"`. -/
theorem directory_mode_counterexample :
    ((ctrEntries toySha idCompress
        [("dir".data, .dict [("b.txt".data, .str (hex40OfNat 7))])] []).2).map
        (fun e => e.1) = ["40000".data] ∧
    "40000".data ≠ "040000".data := by
  constructor
  · rfl
  · decide

/-- The amended C5: every entry the tree builder records carries mode
`"100644"` for a string (blob) value and `"40000"` for a nested mapping
(directory) value, whatever the store and digest. -/
theorem entry_modes_assigned (sha1 : Bytes → Str) (compress : Bytes → Bytes)
    (d : NDict) (st : Store) :
    ((ctrEntries sha1 compress d st).2).map (fun e => (e.1, e.2.1)) =
      d.map (fun p => (modeFor p.2, p.1)) := by
  induction d generalizing st with
  | nil => rfl
  | cons x t ih =>
    obtain ⟨n, v⟩ := x
    cases v with
    | str h => simpa [ctrEntries, ctrItem, modeFor] using ih st
    | dict sub =>
      simpa [ctrEntries, ctrItem, modeFor] using
        ih (ctrItem sha1 compress n (.dict sub) st).1

/-- Witness instantiating the mode assignment on a concrete mapping with
one file and one directory. -/
theorem entry_modes_assigned_witness :
    ((ctrEntries toySha idCompress
        [("a.txt".data, .str (hex40OfNat 5)),
         ("dir".data, .dict [("b.txt".data, .str (hex40OfNat 7))])] []).2).map
        (fun e => (e.1, e.2.1)) =
      [("100644".data, "a.txt".data), ("40000".data, "dir".data)] :=
  entry_modes_assigned toySha idCompress
    [("a.txt".data, .str (hex40OfNat 5)),
     ("dir".data, .dict [("b.txt".data, .str (hex40OfNat 7))])] []

/-! ## Committing with an empty index (claim C3) -/

/-- A freshly initialized repository state: empty store, no branch files,
`HEAD` on master, empty index, empty working tree. -/
def repoMasterEmpty : Repo :=
  ⟨[], [], some "ref: refs/heads/master\n".data, [], [], []⟩

/-- The amended C3: committing on an empty index returns the
"nothing to commit" sentinel and leaves the branch files, `HEAD`, the
index and the working tree unchanged — but the object store either
already holds the empty tree object or gains exactly it, because
`commit` builds the tree before checking the index. -/
theorem commit_empty_index (sha1 : Bytes → Str) (compress : Bytes → Bytes)
    (decompress : Bytes → Option Bytes) (r : Repo) (m a : Str) (ts : Nat)
    (h : r.indexFile = []) :
    ∃ r', commitOp sha1 compress decompress r m a ts = some (r', none) ∧
      r'.refsHeads = r.refsHeads ∧ r'.headFile = r.headFile ∧
      r'.indexFile = [] ∧ r'.wdFiles = r.wdFiles ∧ r'.wdDirs = r.wdDirs ∧
      ((r'.store = r.store ∧
          (lookupA r.store (objHashHex sha1 (treeObj []))).isSome) ∨
        r'.store = (objHashHex sha1 (treeObj []),
          gitSerialize compress (treeObj [])) :: r.store) := by
  rcases hlk : lookupA r.store (objHashHex sha1 (treeObj [])) with _ | b
  · refine ⟨⟨(objHashHex sha1 (treeObj []), gitSerialize compress (treeObj [])) :: r.store,
      r.refsHeads, r.headFile, r.indexFile, r.wdFiles, r.wdDirs⟩,
      ?_, rfl, rfl, h, rfl, rfl, Or.inr (by rw [h])⟩
    simp only [commitOp, h, create_tree_from_index, if_pos, storePut, hlk]
  · refine ⟨⟨r.store, r.refsHeads, r.headFile, r.indexFile, r.wdFiles, r.wdDirs⟩,
      ?_, rfl, rfl, h, rfl, rfl, Or.inl ⟨rfl, by simp [hlk]⟩⟩
    simp only [commitOp, h, create_tree_from_index, if_pos, storePut, hlk]

/-- Witness for the amended C3 on the freshly initialized repository. -/
theorem commit_empty_index_witness :
    ∃ r', commitOp toySha idCompress idDecompress repoMasterEmpty "x".data "y".data 3 =
        some (r', none) ∧
      r'.refsHeads = repoMasterEmpty.refsHeads ∧ r'.headFile = repoMasterEmpty.headFile ∧
      r'.indexFile = [] ∧ r'.wdFiles = repoMasterEmpty.wdFiles ∧
      r'.wdDirs = repoMasterEmpty.wdDirs ∧
      ((r'.store = repoMasterEmpty.store ∧
          (lookupA repoMasterEmpty.store (objHashHex toySha (treeObj []))).isSome) ∨
        r'.store = (objHashHex toySha (treeObj []),
          gitSerialize idCompress (treeObj [])) :: repoMasterEmpty.store) :=
  commit_empty_index toySha idCompress idDecompress repoMasterEmpty "x".data "y".data 3 rfl

/-- Counterexample to C3 as stated: on a fresh repository the empty-index
commit returns the sentinel but does *not* leave the object store
unchanged — the empty tree object is persisted. -/
theorem commit_empty_index_counterexample :
    commitOp toySha idCompress idDecompress repoMasterEmpty "m".data "a".data 0 ≠
      some (repoMasterEmpty, none) ∧
    (commitOp toySha idCompress idDecompress repoMasterEmpty "m".data "a".data 0).map
        (fun p => (p.1.store.length, p.2)) = some (1, none) := by
  exact ⟨by decide, by decide⟩

/-! ## The index after commit and after checkout (claim C6) -/

/-- A completed `restore_working_directory` on a state whose index is
already empty leaves the index empty: it either returns the state as is
(no truthy target commit) or explicitly clears the index. -/
theorem restore_wd_index_nil (dec : Bytes → Option Bytes) (fuel : Nat) (r : Repo)
    (b : Str) (tc : List Str) (r' : Repo) (hin : r.indexFile = [])
    (h : restore_working_directory dec fuel r b tc = some r') : r'.indexFile = [] := by
  simp only [restore_working_directory] at h
  split at h
  · rw [← Option.some.inj h]; exact hin
  · split at h
    · rw [← Option.some.inj h]; exact hin
    · split at h
      · exact absurd h (by simp)
      · split at h
        · exact absurd h (by simp)
        · rw [← Option.some.inj h]

/-- The claim of C6: a successful commit empties the staging index, and a
completed checkout (every completed checkout, whether or not the target
branch has a commit) ends with the staging index empty. -/
theorem post_commit_checkout_index_empty :
    (∀ (sha1 : Bytes → Str) (compress : Bytes → Bytes) (dec : Bytes → Option Bytes)
        (r : Repo) (m a : Str) (ts : Nat) (r' : Repo) (h : Str),
      commitOp sha1 compress dec r m a ts = some (r', some h) → r'.indexFile = []) ∧
    (∀ (dec : Bytes → Option Bytes) (fuel : Nat) (r : Repo) (b : Str) (cb : Bool)
        (r' : Repo) (soft : Bool),
      checkoutOp dec fuel r b cb = some (r', .switched soft) → r'.indexFile = []) := by
  constructor
  · intro sha1 compress dec r m a ts r' h hc
    simp only [commitOp] at hc
    split at hc
    · exact absurd hc (by simp)
    · split at hc
      · exact absurd hc (by simp)
      · split at hc
        · exact absurd hc (by simp)
        · exact absurd hc (by simp)
        · injection hc with hpair
          injection hpair with hfst hsnd
          rw [← hfst]
  · intro dec fuel r b cb r' soft hc
    simp only [checkoutOp] at hc
    split at hc
    · exact absurd hc (by simp)
    next hcond =>
      have hin : r.indexFile = [] := by
        by_contra hne
        exact hcond hne
      split at hc
      · split at hc
        · exact absurd hc (by simp)
        next r4 hres =>
          injection hc with hpair
          injection hpair with hfst hsnd
          rw [← hfst]
          exact restore_wd_index_nil _ _ _ _ _ _ (by simpa using hin) hres
      · split at hc
        · split at hc
          · split at hc
            · split at hc
              · exact absurd hc (by simp)
              next r4 hres =>
                injection hc with hpair
                injection hpair with hfst hsnd
                rw [← hfst]
                exact restore_wd_index_nil _ _ _ _ _ _
                  (by simpa [set_branch_commit] using hin) hres
            · split at hc
              · exact absurd hc (by simp)
              next r4 hres =>
                injection hc with hpair
                injection hpair with hfst hsnd
                rw [← hfst]
                exact restore_wd_index_nil _ _ _ _ _ _ (by simpa using hin) hres
          · split at hc
            · exact absurd hc (by simp)
            next r4 hres =>
              injection hc with hpair
              injection hpair with hfst hsnd
              rw [← hfst]
              exact restore_wd_index_nil _ _ _ _ _ _ (by simpa using hin) hres
        · exact absurd hc (by simp)

/-- Witness for C6: a concrete successful commit and a concrete completed
checkout both end with an empty index. -/
theorem post_commit_checkout_index_empty_witness :
    (commitOp toySha idCompress idDecompress
        ⟨[], [], some "ref: refs/heads/master\n".data,
          [("a.txt".data, hex40OfNat 5)], [], []⟩ "m".data "a".data 1).map
        (fun p => (p.1.indexFile, p.2.isSome)) = some ([], true) ∧
    (⟨[], [], some "ref: refs/heads/dev\n".data, [], [], []⟩ : Repo).indexFile = [] := by
  constructor
  · rcases hr : commitOp toySha idCompress idDecompress
        ⟨[], [], some "ref: refs/heads/master\n".data,
          [("a.txt".data, hex40OfNat 5)], [], []⟩ "m".data "a".data 1 with _ | ⟨r', os⟩
    · exact absurd hr (by decide)
    · rcases os with _ | h
      · have hs : (commitOp toySha idCompress idDecompress
            ⟨[], [], some "ref: refs/heads/master\n".data,
              [("a.txt".data, hex40OfNat 5)], [], []⟩ "m".data "a".data 1).map
            (fun p => p.2.isSome) = some true := by decide
        rw [hr] at hs
        simp at hs
      · have hidx := post_commit_checkout_index_empty.1 toySha idCompress idDecompress
          ⟨[], [], some "ref: refs/heads/master\n".data,
            [("a.txt".data, hex40OfNat 5)], [], []⟩ "m".data "a".data 1 r' h hr
        simp [hidx]
  · exact post_commit_checkout_index_empty.2 idDecompress 3
      ⟨[], [], some "ref: refs/heads/master\n".data, [], [], []⟩ "dev".data true
      ⟨[], [], some "ref: refs/heads/dev\n".data, [], [], []⟩ true (by decide)

/-! ## Log termination and bounds (claim C9) -/

theorem logWalkF_length (dec : Bytes → Option Bytes) (st : Store) :
    ∀ (fu : Nat) (h : Str), (logWalkF dec st fu h).length ≤ fu := by
  intro fu
  induction fu with
  | zero => intro h; simp [logWalkF]
  | succ n ih =>
    intro h
    rw [logWalkF]
    by_cases he : h.isEmpty = true
    · simp [he]
    · rw [if_neg he]
      rcases hlo : load_object dec st h with _ | o <;> simp only [hlo]
      · simp
      · rcases hcc : commit_from_content o.content with _ | pc <;> simp only [hcc]
        · simp
        · rcases hp : pc.parents with _ | ⟨p, t⟩ <;> simp only [hp]
          · simp
          · simpa using ih p

/-- The claim of C9: `log` yields at most `max_count` commits for every
store (cyclic or arbitrarily long parent chains included), yields nothing
when the current branch has no commit, and stops at the first commit
without a parent. -/
theorem log_bounded (dec : Bytes → Option Bytes) (r : Repo) (n : Nat) :
    (logOp dec r n).length ≤ n ∧
    (get_branch_commit r (get_current_branch r) = none → logOp dec r n = []) ∧
    (∀ (st : Store) (h : Str) (fu : Nat) (o : GitObj), h.isEmpty = false →
      load_object dec st h = some o →
      (commit_from_content o.content).map ParsedCommit.parents = some [] →
      logWalkF dec st (fu + 1) h = [h]) := by
  refine ⟨?_, ?_, ?_⟩
  · rw [logOp]
    rcases hg : get_branch_commit r (get_current_branch r) with _ | h <;> simp only [hg]
    · simp
    · by_cases he : h.isEmpty = true
      · simp [he]
      · rw [if_neg he]
        exact logWalkF_length dec r.store n h
  · intro h
    simp [logOp, h]
  · intro st h fu o he hlo hpc
    rcases hcc : commit_from_content o.content with _ | pc
    · rw [hcc] at hpc; simp at hpc
    · rw [hcc] at hpc
      simp only [Option.map_some'] at hpc
      have hp : pc.parents = [] := by injection hpc
      rw [logWalkF, if_neg (by simp [he])]
      simp only [hlo, hcc, hp]

/-- Witness for C9 at a concrete repository with no branch commit, and a
concrete one-commit store whose head commit has no parent. -/
theorem log_bounded_witness :
    (logOp idDecompress repoMasterEmpty 5).length ≤ 5 ∧
    logOp idDecompress repoMasterEmpty 5 = [] ∧
    logWalkF idDecompress
        [("aa".data, strBytes "commit 1".data ++ 0 :: strBytes "author x 1 +0000".data)]
        1 "aa".data = ["aa".data] := by
  refine ⟨(log_bounded idDecompress repoMasterEmpty 5).1,
    (log_bounded idDecompress repoMasterEmpty 5).2.1 rfl,
    (log_bounded idDecompress repoMasterEmpty 5).2.2
      [("aa".data, strBytes "commit 1".data ++ 0 :: strBytes "author x 1 +0000".data)]
      "aa".data 0 ⟨"commit".data, strBytes "author x 1 +0000".data⟩
      (by decide) (by decide) (by decide)⟩

/-! ## Checkout with `-b` and no commits (claim C10) -/

/-- The claim of C10: `checkout -b` on a missing branch when the current
branch has no (truthy) commit reports the soft failure yet still rewrites
the symbolic `HEAD` to the nonexistent branch, creating no branch
reference and touching nothing else. -/
theorem checkout_create_no_commit_mutates_head (dec : Bytes → Option Bytes)
    (fuel : Nat) (r : Repo) (b : Str)
    (hidx : r.indexFile = [])
    (hbr : lookupA r.refsHeads b = none)
    (hnc : truthyOS (get_branch_commit r (get_current_branch r)) = false) :
    checkoutOp dec fuel r b true =
      some (⟨r.store, r.refsHeads, some ("ref: refs/heads/".data ++ b ++ ['\n']),
        r.indexFile, r.wdFiles, r.wdDirs⟩, .switched true) := by
  have hg : get_branch_commit
      (⟨r.store, r.refsHeads, some ("ref: refs/heads/".data ++ b ++ ['\n']),
        r.indexFile, r.wdFiles, r.wdDirs⟩ : Repo) b = (lookupA r.refsHeads b).map trimWS := rfl
  rcases hc : get_branch_commit r (get_current_branch r) with _ | pc
  · simp only [checkoutOp, hidx, hc, hbr, hg]
    simp [restore_working_directory, get_branch_commit, hbr]
  · have hpe : pc.isEmpty = true := by
      rw [hc] at hnc
      simpa [truthyOS] using hnc
    simp only [checkoutOp, hidx, hc, hpe, hbr, hg]
    simp [restore_working_directory, get_branch_commit, hbr, hpe]

/-- Witness for C10 on the freshly initialized repository. -/
theorem checkout_create_no_commit_mutates_head_witness :
    checkoutOp idDecompress 2 repoMasterEmpty "dev".data true =
      some (⟨repoMasterEmpty.store, repoMasterEmpty.refsHeads,
        some ("ref: refs/heads/".data ++ "dev".data ++ ['\n']),
        repoMasterEmpty.indexFile, repoMasterEmpty.wdFiles, repoMasterEmpty.wdDirs⟩,
        .switched true) :=
  checkout_create_no_commit_mutates_head idDecompress 2 repoMasterEmpty "dev".data
    rfl rfl rfl

/-! ## Status classification of staged-but-deleted paths (claim C8) -/

theorem lookupA_some_mem {κ β : Type} [DecidableEq κ] (l : List (κ × β)) (k : κ) (v : β)
    (h : lookupA l k = some v) : (k, v) ∈ l := by
  induction l with
  | nil => simp [lookupA] at h
  | cons q t ih =>
    obtain ⟨k', v'⟩ := q
    rw [lookupA] at h
    by_cases hk : k' = k
    · rw [if_pos hk] at h
      subst hk
      rw [← Option.some.inj h]
      exact List.mem_cons_self _ _
    · rw [if_neg hk] at h
      exact List.mem_cons_of_mem _ (ih h)

theorem lookupA_map_none {κ β γ : Type} [DecidableEq κ] (l : List (κ × β))
    (f : κ × β → γ) (k : κ) (h : lookupA l k = none) :
    lookupA (l.map (fun kv => (kv.1, f kv))) k = none := by
  induction l with
  | nil => rfl
  | cons q t ih =>
    obtain ⟨k', v'⟩ := q
    rw [lookupA] at h
    rw [List.map_cons, lookupA]
    by_cases hk : k' = k
    · rw [if_pos hk] at h
      exact absurd h (by simp)
    · rw [if_neg hk] at h
      exact if_neg hk ▸ ih h

theorem deleted_fold_mono (working : List (Str × Str)) (l : List (Str × Str))
    (acc : List (Str × Str)) (x : Str × Str) (hx : x ∈ acc) :
    x ∈ l.foldl (fun acc kv =>
      if (lookupA working kv.1).isNone then acc ++ [("deleted file".data, kv.1)]
      else acc) acc := by
  induction l generalizing acc with
  | nil => exact hx
  | cons kv t ih =>
    rw [List.foldl_cons]
    by_cases hc : (lookupA working kv.1).isNone = true
    · rw [if_pos hc]
      exact ih _ (List.mem_append_left _ hx)
    · rw [if_neg hc]
      exact ih _ hx

theorem deleted_fold_mem (working : List (Str × Str)) (l : List (Str × Str))
    (acc : List (Str × Str)) (p v : Str)
    (hmem : (p, v) ∈ l) (hw : (lookupA working p).isNone = true) :
    ("deleted file".data, p) ∈ l.foldl (fun acc kv =>
      if (lookupA working kv.1).isNone then acc ++ [("deleted file".data, kv.1)]
      else acc) acc := by
  induction l generalizing acc with
  | nil => simp at hmem
  | cons kv t ih =>
    rw [List.foldl_cons]
    rcases List.mem_cons.mp hmem with h | h
    · have hkv1 : kv.1 = p := by rw [← h]
      rw [if_pos (show (lookupA working kv.1).isNone = true by rw [hkv1]; exact hw)]
      exact deleted_fold_mono working t _ _
        (List.mem_append_right _ (by simp [hkv1]))
    · by_cases hc : (lookupA working kv.1).isNone = true
      · rw [if_pos hc]; exact ih _ h
      · rw [if_neg hc]; exact ih _ h

/-- The amended C8: in `Repository.py`'s `status`, every path present in
the staging index but absent from the working directory is reported in
the unstaged category as a deleted file. -/
theorem staged_deleted_reported (sha1 : Bytes → Str) (dec : Bytes → Option Bytes)
    (fuel : Nat) (r : Repo) (p v : Str)
    (hidx : lookupA r.indexFile p = some v)
    (hwd : lookupA r.wdFiles p = none) :
    ("deleted file".data, p) ∈ (statusRepoVer sha1 dec fuel r).unstaged := by
  have hw : lookupA (workingHashes sha1 r) p = none :=
    lookupA_map_none r.wdFiles _ p hwd
  have hmem := lookupA_some_mem _ _ _ hidx
  simp only [statusRepoVer]
  exact deleted_fold_mem (workingHashes sha1 r) r.indexFile _ p v hmem (by simp [hw])

/-- Witness for the amended C8 on a concrete repository with one staged
file and an empty working directory. -/
theorem staged_deleted_reported_witness :
    ("deleted file".data, "a.txt".data) ∈
      (statusRepoVer toySha idDecompress 1
        ⟨[], [], some "ref: refs/heads/master\n".data,
          [("a.txt".data, hex40OfNat 5)], [], []⟩).unstaged :=
  staged_deleted_reported toySha idDecompress 1
    ⟨[], [], some "ref: refs/heads/master\n".data,
      [("a.txt".data, hex40OfNat 5)], [], []⟩
    "a.txt".data (hex40OfNat 5) rfl rfl

/-- Counterexample to C8 as stated against `main.py`'s `status`: the same
staged-but-missing path is reported in no category there (its unstaged
list holds only modified paths and its deleted list only last-commit
paths), so that duplicate does not report it as unstaged/deleted. -/
theorem staged_deleted_unreported_main :
    statusMainVer toySha idDecompress 1
        ⟨[], [], some "ref: refs/heads/master\n".data,
          [("a.txt".data, hex40OfNat 5)], [], []⟩ =
      ⟨[("new file".data, "a.txt".data)], [], [], []⟩ ∧
    lookupA ([("a.txt".data, hex40OfNat 5)] : List (Str × Str)) "a.txt".data ≠ none ∧
    lookupA ([] : List (Str × Bytes)) "a.txt".data = none := by
  exact ⟨by decide, by decide, by decide⟩

/-! ## Claim C1, part A: the tree content codec round-trips valid entries. -/

theorem digitChar_toNat (m : Nat) (h : m < 16) :
    (Nat.digitChar m).toNat = if m < 10 then 48 + m else 87 + m := by
  interval_cases m <;> decide

theorem lowerHex_digitChar (ch : Char) (h : isLowerHex ch = true) :
    ∃ v, v < 16 ∧ hexVal? ch = some v ∧ Nat.digitChar v = ch := by
  rw [isLowerHex, Bool.or_eq_true, Bool.and_eq_true, Bool.and_eq_true] at h
  rcases h with ⟨h1, h2⟩ | ⟨h1, h2⟩
  · have hl : '0' ≤ ch := of_decide_eq_true h1
    have hr : ch ≤ '9' := of_decide_eq_true h2
    have hln : 48 ≤ ch.toNat := hl
    have hrn : ch.toNat ≤ 57 := hr
    refine ⟨ch.toNat - 48, by omega, ?_, ?_⟩
    · rw [hexVal?, if_pos ⟨hl, hr⟩]
    · exact char_toNat_inj
        (by rw [digitChar_toNat _ (by omega), if_pos (by omega)]; omega)
  · have hl : 'a' ≤ ch := of_decide_eq_true h1
    have hr : ch ≤ 'f' := of_decide_eq_true h2
    have hln : 97 ≤ ch.toNat := hl
    have hrn : ch.toNat ≤ 102 := hr
    have hnd : ¬ ('0' ≤ ch ∧ ch ≤ '9') := by
      rintro ⟨_, hx⟩
      have : ch.toNat ≤ 57 := hx
      omega
    refine ⟨ch.toNat - 87, by omega, ?_, ?_⟩
    · rw [hexVal?, if_neg hnd, if_pos ⟨hl, hr⟩]
    · exact char_toNat_inj
        (by rw [digitChar_toNat _ (by omega), if_neg (by omega)]; omega)

theorem byteHexStr_digits (v1 v2 : Nat) (h1 : v1 < 16) (h2 : v2 < 16) :
    byteHexStr (v1 * 16 + v2) = [Nat.digitChar v1, Nat.digitChar v2] := by
  have e1 : (v1 * 16 + v2) / 16 % 16 = v1 := by omega
  have e2 : (v1 * 16 + v2) % 16 = v2 := by omega
  rw [byteHexStr, e1, e2]

theorem bytesHexStr_cons (x : Nat) (bs : Bytes) :
    bytesHexStr (x :: bs) = byteHexStr x ++ bytesHexStr bs := by
  simp [bytesHexStr]

theorem fromHex_roundtrip : ∀ (n : Nat) (h : Str), h.length ≤ n →
    (∀ ch ∈ h, isLowerHex ch = true) → h.length % 2 = 0 →
    ∃ bs, fromHex? h = some bs ∧ bytesHexStr bs = h ∧ bs.length = h.length / 2 := by
  intro n
  induction n with
  | zero =>
    intro h hlen _ _
    have : h = [] := List.length_eq_zero.mp (by omega)
    subst this
    exact ⟨[], rfl, rfl, rfl⟩
  | succ n ih =>
    intro h hlen hh heven
    match h with
    | [] => exact ⟨[], rfl, rfl, rfl⟩
    | [c] => simp at heven
    | c1 :: c2 :: t =>
      obtain ⟨v1, hv1, he1, hd1⟩ := lowerHex_digitChar c1 (hh c1 (by simp))
      obtain ⟨v2, hv2, he2, hd2⟩ := lowerHex_digitChar c2 (hh c2 (by simp))
      obtain ⟨bs, hbs, hback, hblen⟩ := ih t
        (by simp at hlen ⊢; omega)
        (fun ch hch => hh ch (by simp [hch]))
        (by simp at heven ⊢; omega)
      refine ⟨(v1 * 16 + v2) :: bs, ?_, ?_, ?_⟩
      · rw [fromHex?, he1, he2, hbs]
      · rw [bytesHexStr_cons, byteHexStr_digits v1 v2 hv1 hv2, hback, hd1, hd2]
        rfl
      · simp [hblen]
        omega

/-- A forty-hex-digit string decodes to exactly twenty bytes and encodes
back to itself. -/
theorem hex40_bytes (h : Str) (hh : Hex40 h) :
    fromHex? h = some (fromHexD h) ∧ (fromHexD h).length = 20 ∧
      bytesHexStr (fromHexD h) = h := by
  obtain ⟨hlen, hdig⟩ := hh
  obtain ⟨bs, hbs, hback, hblen⟩ :=
    fromHex_roundtrip h.length h (le_refl _) hdig (by omega)
  rw [fromHexD, hbs]
  exact ⟨rfl, by simp [hblen, hlen], hback⟩

theorem splitOnceC_append (c : Char) (m n : Str) (hm : ∀ x ∈ m, x ≠ c) :
    splitOnceC c (m ++ c :: n) = some (m, n) := by
  induction m with
  | nil => simp [splitOnceC]
  | cons x xs ih =>
    have hx : x ≠ c := hm x (by simp)
    rw [List.cons_append, splitOnceC, if_neg hx, ih (fun y hy => hm y (by simp [hy]))]
    rfl

/-- Validity of one tree entry for the parse round trip: the mode is
NUL-free and space-free, the name NUL-free, the hash forty lowercase hex
digits. -/
def EntryOK (e : TEntry) : Prop :=
  (∀ ch ∈ e.1, ch.toNat ≠ 0 ∧ ch ≠ ' ') ∧ (∀ ch ∈ e.2.1, ch.toNat ≠ 0) ∧ Hex40 e.2.2

theorem treeParseF_concat : ∀ (es : List TEntry) (fuel : Nat),
    (∀ e ∈ es, EntryOK e) → ((es.map entryBytes).flatten).length ≤ fuel →
    treeParseF fuel ((es.map entryBytes).flatten) = some es := by
  intro es
  induction es with
  | nil =>
    intro fuel _ _
    cases fuel <;> rfl
  | cons e t ih =>
    intro fuel hok hlen
    obtain ⟨hm, hn, hh⟩ := hok e (by simp)
    obtain ⟨hfx, hlen20, hback⟩ := hex40_bytes e.2.2 hh
    have hdr : Str := e.1 ++ ' ' :: e.2.1
    have hhdrnz : ∀ x ∈ strBytes (e.1 ++ ' ' :: e.2.1), x ≠ 0 := by
      refine strBytes_all_ne_zero _ ?_
      intro ch hch
      rcases List.mem_append.mp hch with h | h
      · exact (hm ch h).1
      · rcases List.mem_cons.mp h with h | h
        · rw [h]; decide
        · exact hn ch h
    have hshape : entryBytes e ++ ((t.map entryBytes).flatten) =
        strBytes (e.1 ++ ' ' :: e.2.1) ++
          0 :: (fromHexD e.2.2 ++ (t.map entryBytes).flatten) := by
      rw [entryBytes]
      simp
    have hlenpos : 0 < (entryBytes e).length := by
      rw [entryBytes]
      simp [strBytes]
    match fuel with
    | 0 =>
      exfalso
      simp only [List.map_cons, List.flatten_cons, List.length_append] at hlen
      omega
    | fu + 1 =>
      have hne : (entryBytes e ++ (t.map entryBytes).flatten) ≠ [] := by
        intro hx
        rw [List.append_eq_nil] at hx
        rw [hx.1] at hlenpos
        simp at hlenpos
      rw [List.map_cons, List.flatten_cons, hshape]
      rcases hX : strBytes (e.1 ++ ' ' :: e.2.1) ++
          0 :: (fromHexD e.2.2 ++ (t.map entryBytes).flatten) with _ | ⟨b0, brest⟩
      · exact absurd hX (by simp)
      · simp only [treeParseF]
        rw [← hX]
        rw [findIdx0_append _ _ hhdrnz 0]
        simp only [Nat.zero_add]
        rw [List.take_left, bytesStr_strBytes]
        rw [splitOnceC_append ' ' e.1 e.2.1 (fun x hx => (hm x hx).2)]
        have hdrop1 : (strBytes (e.1 ++ ' ' :: e.2.1) ++
            0 :: (fromHexD e.2.2 ++ (t.map entryBytes).flatten)).drop
              ((strBytes (e.1 ++ ' ' :: e.2.1)).length + 1) =
            fromHexD e.2.2 ++ (t.map entryBytes).flatten := by
          rw [show strBytes (e.1 ++ ' ' :: e.2.1) ++
              0 :: (fromHexD e.2.2 ++ (t.map entryBytes).flatten) =
            (strBytes (e.1 ++ ' ' :: e.2.1) ++ [0]) ++
              (fromHexD e.2.2 ++ (t.map entryBytes).flatten) by simp]
          rw [show (strBytes (e.1 ++ ' ' :: e.2.1)).length + 1 =
            (strBytes (e.1 ++ ' ' :: e.2.1) ++ [0]).length by simp]
          exact List.drop_left _ _
        rw [hdrop1]
        have htake20 : (fromHexD e.2.2 ++ (t.map entryBytes).flatten).take 20 =
            fromHexD e.2.2 := by
          rw [← hlen20]
          exact List.take_left _ _
        rw [htake20, hback]
        have hdrop21 : (strBytes (e.1 ++ ' ' :: e.2.1) ++
            0 :: (fromHexD e.2.2 ++ (t.map entryBytes).flatten)).drop
              ((strBytes (e.1 ++ ' ' :: e.2.1)).length + 21) =
            (t.map entryBytes).flatten := by
          rw [show strBytes (e.1 ++ ' ' :: e.2.1) ++
              0 :: (fromHexD e.2.2 ++ (t.map entryBytes).flatten) =
            (strBytes (e.1 ++ ' ' :: e.2.1) ++ 0 :: fromHexD e.2.2) ++
              (t.map entryBytes).flatten by simp]
          rw [show (strBytes (e.1 ++ ' ' :: e.2.1)).length + 21 =
            (strBytes (e.1 ++ ' ' :: e.2.1) ++ 0 :: fromHexD e.2.2).length by
              simp [hlen20]]
          exact List.drop_left _ _
        rw [hdrop21]
        rw [ih fu (fun x hx => hok x (by simp [hx])) (by
          simp only [List.map_cons, List.flatten_cons, List.length_append] at hlen
          omega)]

/-- `Tree.from_content` recovers the serialized entries of a tree in
`sorted` order. -/
theorem tree_from_content_serialize (es : List TEntry)
    (hok : ∀ e ∈ es, EntryOK e) :
    tree_from_content (serialize_entries es) = some (List.insertionSort entryLE es) := by
  rw [tree_from_content, serialize_entries]
  exact treeParseF_concat (List.insertionSort entryLE es) _
    (fun e he => hok e ((List.perm_insertionSort entryLE es).mem_iff.mp he))
    (le_refl _)

/-! ## Claim C1, part B: the threaded tree build against the store-free
companions, and what the store holds afterwards. -/

theorem storePut_snd (sha1 : Bytes → Str) (compress : Bytes → Bytes) (st : Store)
    (o : GitObj) : (storePut sha1 compress st o).2 = objHashHex sha1 o := by
  rcases h : lookupA st (objHashHex sha1 o) with _ | v <;> simp [storePut, h]

theorem ctr_snd (sha1 : Bytes → Str) (compress : Bytes → Bytes) :
    ∀ (d : NDict) (st : Store), (ctrEntries sha1 compress d st).2 = treeEntriesOf sha1 d := by
  refine ctrEntries.induct sha1 compress
    (fun d st => (ctrEntries sha1 compress d st).2 = treeEntriesOf sha1 d)
    (fun n v st => (ctrItem sha1 compress n v st).2 = treeEntryItem sha1 n v)
    ?_ ?_ ?_ ?_
  · intro n h st
    rfl
  · intro n sub st ih
    simp only [ctrItem, treeEntryItem, storePut_snd]
    rw [ih]
  · intro st
    rfl
  · intro n v t st q ihv iht
    simp only [ctrEntries, treeEntriesOf]
    rw [ihv, iht]

/-- The store only holds hash-addressed serializations of objects from a
universe `U`. -/
def GoodStore (sha1 : Bytes → Str) (compress : Bytes → Bytes) (U : List GitObj)
    (st : Store) : Prop :=
  ∀ k v, lookupA st k = some v →
    ∃ o ∈ U, k = objHashHex sha1 o ∧ v = gitSerialize compress o

/-- Collision-freedom of the digest on the universe of objects this run
stores. -/
def HashInj (sha1 : Bytes → Str) (U : List GitObj) : Prop :=
  ∀ o1 ∈ U, ∀ o2 ∈ U, objHashHex sha1 o1 = objHashHex sha1 o2 → o1 = o2

theorem storePut_mono (sha1 : Bytes → Str) (compress : Bytes → Bytes) (st : Store)
    (o : GitObj) (k : Str) (v : Bytes) (h : lookupA st k = some v) :
    lookupA (storePut sha1 compress st o).1 k = some v := by
  rcases hl : lookupA st (objHashHex sha1 o) with _ | b <;> simp only [storePut, hl]
  · rw [lookupA]
    have hne : objHashHex sha1 o ≠ k := by
      intro he
      rw [he, h] at hl
      exact absurd hl (by simp)
    rw [if_neg hne]
    exact h
  · exact h

theorem storePut_good (sha1 : Bytes → Str) (compress : Bytes → Bytes)
    (U : List GitObj) (st : Store) (o : GitObj)
    (hg : GoodStore sha1 compress U st) (ho : o ∈ U) :
    GoodStore sha1 compress U (storePut sha1 compress st o).1 := by
  rcases hl : lookupA st (objHashHex sha1 o) with _ | b <;> simp only [storePut, hl]
  · intro k v hkv
    rw [lookupA] at hkv
    by_cases hk : objHashHex sha1 o = k
    · rw [if_pos hk] at hkv
      exact ⟨o, ho, hk.symm, (Option.some.inj hkv).symm⟩
    · rw [if_neg hk] at hkv
      exact hg k v hkv
  · exact hg

theorem storePut_self (sha1 : Bytes → Str) (compress : Bytes → Bytes)
    (U : List GitObj) (st : Store) (o : GitObj)
    (hg : GoodStore sha1 compress U st) (hinj : HashInj sha1 U) (ho : o ∈ U) :
    lookupA (storePut sha1 compress st o).1 (objHashHex sha1 o) =
      some (gitSerialize compress o) := by
  rcases hl : lookupA st (objHashHex sha1 o) with _ | b <;> simp only [storePut, hl]
  · rw [lookupA, if_pos rfl]
  · obtain ⟨o', ho', hk, hv⟩ := hg _ _ hl
    have heq : o' = o := hinj o' ho' o ho hk.symm
    rw [hv, heq]

theorem ctr_store (sha1 : Bytes → Str) (compress : Bytes → Bytes)
    (U : List GitObj) (hinj : HashInj sha1 U) :
    ∀ (d : NDict) (st : Store),
      GoodStore sha1 compress U st → (∀ o ∈ treeObjsSub sha1 d, o ∈ U) →
      GoodStore sha1 compress U (ctrEntries sha1 compress d st).1 ∧
      (∀ k v, lookupA st k = some v →
        lookupA (ctrEntries sha1 compress d st).1 k = some v) ∧
      (∀ o ∈ treeObjsSub sha1 d,
        lookupA (ctrEntries sha1 compress d st).1 (objHashHex sha1 o) =
          some (gitSerialize compress o)) := by
  refine ctrEntries.induct sha1 compress
    (fun d st => GoodStore sha1 compress U st → (∀ o ∈ treeObjsSub sha1 d, o ∈ U) →
      GoodStore sha1 compress U (ctrEntries sha1 compress d st).1 ∧
      (∀ k v, lookupA st k = some v →
        lookupA (ctrEntries sha1 compress d st).1 k = some v) ∧
      (∀ o ∈ treeObjsSub sha1 d,
        lookupA (ctrEntries sha1 compress d st).1 (objHashHex sha1 o) =
          some (gitSerialize compress o)))
    (fun n v st => GoodStore sha1 compress U st → (∀ o ∈ treeObjsItem sha1 v, o ∈ U) →
      GoodStore sha1 compress U (ctrItem sha1 compress n v st).1 ∧
      (∀ k w, lookupA st k = some w →
        lookupA (ctrItem sha1 compress n v st).1 k = some w) ∧
      (∀ o ∈ treeObjsItem sha1 v,
        lookupA (ctrItem sha1 compress n v st).1 (objHashHex sha1 o) =
          some (gitSerialize compress o)))
    ?_ ?_ ?_ ?_
  · intro n h st hg _
    exact ⟨hg, fun k w hw => hw, by simp [treeObjsItem]⟩
  · intro n sub st ih hg hU
    have hUsub : ∀ o ∈ treeObjsSub sha1 sub, o ∈ U := by
      intro o ho
      exact hU o (by simp [treeObjsItem, ho])
    obtain ⟨hg0, hmono0, hpres0⟩ := ih hg hUsub
    have hroot : treeObj (treeEntriesOf sha1 sub) ∈ U := by
      refine hU _ ?_
      simp [treeObjsItem]
    have hq2 : (ctrEntries sha1 compress sub st).2 = treeEntriesOf sha1 sub :=
      ctr_snd sha1 compress sub st
    refine ⟨?_, ?_, ?_⟩
    · simp only [ctrItem, hq2]
      exact storePut_good sha1 compress U _ _ hg0 hroot
    · intro k w hw
      simp only [ctrItem, hq2]
      exact storePut_mono sha1 compress _ _ k w (hmono0 k w hw)
    · intro o ho
      simp only [ctrItem, hq2]
      have ho' : o ∈ treeObjsSub sha1 sub ∨ o = treeObj (treeEntriesOf sha1 sub) := by
        simpa [treeObjsItem] using ho
      rcases ho' with hsub | hself
      · exact storePut_mono sha1 compress _ _ _ _ (hpres0 o hsub)
      · rw [hself]
        exact storePut_self sha1 compress U _ _ hg0 hinj hroot
  · intro st hg _
    exact ⟨hg, fun k w hw => hw, by simp [treeObjsSub]⟩
  · intro n v t st q ihv iht hg hU
    have hUv : ∀ o ∈ treeObjsItem sha1 v, o ∈ U := by
      intro o ho
      exact hU o (by simp [treeObjsSub, ho])
    have hUt : ∀ o ∈ treeObjsSub sha1 t, o ∈ U := by
      intro o ho
      exact hU o (by simp [treeObjsSub, ho])
    obtain ⟨hgv, hmv, hpv⟩ := ihv hg hUv
    obtain ⟨hgt, hmt, hpt⟩ := iht hgv hUt
    refine ⟨?_, ?_, ?_⟩
    · simpa only [ctrEntries] using hgt
    · intro k w hw
      simpa only [ctrEntries] using hmt k w (hmv k w hw)
    · intro o ho
      have ho' : o ∈ treeObjsItem sha1 v ∨ o ∈ treeObjsSub sha1 t := by
        simpa [treeObjsSub] using ho
      rcases ho' with hov | hot
      · simpa only [ctrEntries] using hmt _ _ (hpv o hov)
      · simpa only [ctrEntries] using hpt o hot

/-- What `create_tree_recursive` returns and guarantees: the companion
hash, a still-good store, and the presence of every tree object of the
mapping. -/
theorem create_tree_rec_spec (sha1 : Bytes → Str) (compress : Bytes → Bytes)
    (U : List GitObj) (hinj : HashInj sha1 U) (d : NDict) (st : Store)
    (hg : GoodStore sha1 compress U st) (hU : ∀ o ∈ treeObjsOf sha1 d, o ∈ U) :
    (create_tree_rec sha1 compress d st).2 = treeHashOfDict sha1 d ∧
    GoodStore sha1 compress U (create_tree_rec sha1 compress d st).1 ∧
    (∀ o ∈ treeObjsOf sha1 d,
      lookupA (create_tree_rec sha1 compress d st).1 (objHashHex sha1 o) =
        some (gitSerialize compress o)) := by
  have hUsub : ∀ o ∈ treeObjsSub sha1 d, o ∈ U := by
    intro o ho
    exact hU o (by simp [treeObjsOf, ho])
  have hroot : treeObj (treeEntriesOf sha1 d) ∈ U := by
    refine hU _ ?_
    simp [treeObjsOf]
  obtain ⟨hg1, hm1, hp1⟩ := ctr_store sha1 compress U hinj d st hg hUsub
  have hq2 : (ctrEntries sha1 compress d st).2 = treeEntriesOf sha1 d :=
    ctr_snd sha1 compress d st
  refine ⟨?_, ?_, ?_⟩
  · simp only [create_tree_rec, hq2, storePut_snd, treeHashOfDict]
  · simp only [create_tree_rec, hq2]
    exact storePut_good sha1 compress U _ _ hg1 hroot
  · intro o ho
    simp only [create_tree_rec, hq2]
    have ho' : o ∈ treeObjsSub sha1 d ∨ o = treeObj (treeEntriesOf sha1 d) := by
      simpa [treeObjsOf] using ho
    rcases ho' with hsub | hself
    · exact storePut_mono sha1 compress _ _ _ _ (hp1 o hsub)
    · rw [hself]
      exact storePut_self sha1 compress U _ _ hg1 hinj hroot

/-! ## Claim C1, part C: flattening a stored tree recovers the nested
mapping.  Definitions and bookkeeping lemmas first. -/

mutual

/-- Depth of a nested mapping, bounding the recursion of
`build_index_from_tree`. -/
def ndepth : NDict → Nat
  | [] => 0
  | (_, v) :: t => max (ndepthV v) (ndepth t)

/-- Depth of one value. -/
def ndepthV : NVal → Nat
  | .str _ => 0
  | .dict d => ndepth d + 1

end

/-- A usable path segment: nonempty, NUL-free, slash-free. -/
def NameOK (n : Str) : Prop := n ≠ [] ∧ ∀ ch ∈ n, ch.toNat ≠ 0 ∧ ch ≠ '/'

mutual

/-- Well-formedness of the items of a nested mapping: usable names,
forty-hex leaves, and recursively well-formed nonempty subdirectories
with distinct names. -/
def WFDl : NDict → Prop
  | [] => True
  | (n, v) :: t => (NameOK n ∧ WFV v) ∧ WFDl t

/-- Well-formedness of one value. -/
def WFV : NVal → Prop
  | .str h => Hex40 h
  | .dict s => s ≠ [] ∧ (s.map Prod.fst).Nodup ∧ WFDl s

end

/-- Well-formedness of a nested mapping including distinct names at the
top level. -/
def WFD (d : NDict) : Prop := (d.map Prod.fst).Nodup ∧ WFDl d

/-- The flattening of a nested mapping to string-keyed pairs under a path
prefix. -/
def flatStrs (d : NDict) (pfx : Str) : List (Str × Str) :=
  (flatSegs d).map (fun q => (pfx ++ joinC '/' q.1, q.2))

/-- The pairs one parsed entry contributes to `build_index_from_tree`. -/
def blockOf (f : Str → Str → List (Str × Str)) (pfx : Str) (e : TEntry) :
    List (Str × Str) :=
  if "100".data.isPrefixOf e.1 then [(pfx ++ e.2.1, e.2.2)]
  else if "400".data.isPrefixOf e.1 then f e.2.2 (pfx ++ e.2.1 ++ "/".data)
  else []

theorem flatItem_keys_nonempty (n : Str) (v : NVal) :
    ∀ q ∈ flatItem n v, q.1 ≠ [] := by
  intro q hq
  cases v with
  | str s =>
    simp only [flatItem, List.mem_singleton] at hq
    rw [hq]
    simp
  | dict sub =>
    simp only [flatItem, List.mem_map] at hq
    obtain ⟨q', _, hq'⟩ := hq
    rw [← hq']
    simp

theorem flatSegs_keys_nonempty : ∀ (d : NDict), ∀ q ∈ flatSegs d, q.1 ≠ [] := by
  intro d
  induction d with
  | nil => simp [flatSegs]
  | cons x t ih =>
    intro q hq
    obtain ⟨n, v⟩ := x
    rcases List.mem_append.mp (by simpa [flatSegs] using hq) with h | h
    · exact flatItem_keys_nonempty n v q h
    · exact ih q h

theorem flatSegs_heads : ∀ (d : NDict) (q : List Str × Str), q ∈ flatSegs d →
    ∃ m ∈ d.map Prod.fst, ∃ q', q.1 = m :: q' := by
  intro d
  induction d with
  | nil =>
    intro q hq
    simp [flatSegs] at hq
  | cons x t ih =>
    intro q hq
    obtain ⟨n, v⟩ := x
    rcases List.mem_append.mp (by simpa [flatSegs] using hq) with h | h
    · cases v with
      | str s =>
        simp only [flatItem, List.mem_singleton] at h
        refine ⟨n, ?_, [], ?_⟩
        · simp only [List.map_cons]
          exact List.mem_cons_self _ _
        · rw [h]
      | dict sub =>
        simp only [flatItem, List.mem_map] at h
        obtain ⟨q', _, hq'⟩ := h
        refine ⟨n, ?_, q'.1, ?_⟩
        · simp only [List.map_cons]
          exact List.mem_cons_self _ _
        · rw [← hq']
    · obtain ⟨m, hm, q', hq'⟩ := ih q h
      refine ⟨m, ?_, q', hq'⟩
      simp only [List.map_cons, List.mem_cons]
      exact Or.inr hm

theorem flatItem_head (n : Str) (v : NVal) :
    ∀ q ∈ (flatItem n v).map Prod.fst, ∃ q', q = n :: q' := by
  intro q hq
  cases v with
  | str s =>
    simp only [flatItem, List.map_cons, List.map_nil, List.mem_singleton] at hq
    exact ⟨[], hq⟩
  | dict sub =>
    simp only [flatItem, List.map_map, List.mem_map] at hq
    obtain ⟨q', _, hq'⟩ := hq
    exact ⟨q'.1, hq'.symm⟩

theorem flatSegs_nodup : ∀ (d : NDict), (d.map Prod.fst).Nodup → WFDl d →
    ((flatSegs d).map Prod.fst).Nodup := by
  refine flatSegs.induct
    (fun d => (d.map Prod.fst).Nodup → WFDl d → ((flatSegs d).map Prod.fst).Nodup)
    (fun n v => WFV v → ((flatItem n v).map Prod.fst).Nodup) ?_ ?_ ?_ ?_
  · intro n h _
    simp [flatItem]
  · intro n sub ih hwf
    obtain ⟨hne, hnd, hwfl⟩ := hwf
    have hsub := ih hnd hwfl
    simp only [flatItem, List.map_map]
    rw [show (Prod.fst ∘ fun q : List Str × Str => (n :: q.1, q.2)) =
      ((n :: ·) ∘ Prod.fst) from rfl]
    rw [← List.map_map]
    exact List.Nodup.map (fun a b hab => by simpa using hab) hsub
  · intro _ _
    simp [flatSegs]
  · intro n v t ihv iht hnd hwf
    simp only [List.map_cons, List.nodup_cons] at hnd
    obtain ⟨hnmem, hndt⟩ := hnd
    obtain ⟨⟨hname, hv⟩, hwt⟩ := hwf
    simp only [flatSegs, List.map_append]
    refine (ihv hv).append (iht hndt hwt) ?_
    intro q hq1 hq2
    obtain ⟨q', hq'⟩ := flatItem_head n v q hq1
    rcases List.mem_map.mp hq2 with ⟨p, hp, hpe⟩
    obtain ⟨m2, hm2, q3, hq3⟩ := flatSegs_heads t p hp
    have : q = m2 :: q3 := by rw [← hpe, hq3]
    rw [hq'] at this
    injection this with h1 _
    rw [h1] at hnmem
    exact hnmem hm2

theorem flatSegs_comps : ∀ (d : NDict), WFDl d →
    ∀ q ∈ flatSegs d, ∀ s ∈ q.1, NameOK s := by
  refine flatSegs.induct
    (fun d => WFDl d → ∀ q ∈ flatSegs d, ∀ s ∈ q.1, NameOK s)
    (fun n v => NameOK n → WFV v → ∀ q ∈ flatItem n v, ∀ s ∈ q.1, NameOK s) ?_ ?_ ?_ ?_
  · intro n h hn _ q hq s hs
    simp only [flatItem, List.mem_singleton] at hq
    rw [hq] at hs
    simp only [List.mem_singleton] at hs
    rw [hs]
    exact hn
  · intro n sub ih hn hwf q hq s hs
    obtain ⟨hne, hnd, hwfl⟩ := hwf
    simp only [flatItem, List.mem_map] at hq
    obtain ⟨q', hq', hqe⟩ := hq
    rw [← hqe] at hs
    rcases List.mem_cons.mp hs with h | h
    · rw [h]; exact hn
    · exact ih hwfl q' hq' s h
  · intro _ q hq
    simp [flatSegs] at hq
  · intro n v t ihv iht hwf q hq s hs
    obtain ⟨⟨hname, hv⟩, hwt⟩ := hwf
    rcases List.mem_append.mp (by simpa [flatSegs] using hq) with h | h
    · exact ihv hname hv q h s hs
    · exact iht hwt q h s hs

theorem joinC_cons_of_ne_nil (c : Char) (s : Str) (t : List Str) (ht : t ≠ []) :
    joinC c (s :: t) = s ++ c :: joinC c t := by
  cases t with
  | nil => exact absurd rfl ht
  | cons q u => rfl

theorem joinSegs_inj (q1 q2 : List Str)
    (h1 : q1 ≠ []) (h2 : q2 ≠ [])
    (hc1 : ∀ s ∈ q1, ∀ x ∈ s, x ≠ '/') (hc2 : ∀ s ∈ q2, ∀ x ∈ s, x ≠ '/')
    (he : joinC '/' q1 = joinC '/' q2) : q1 = q2 := by
  have e1 : splitOnC '/' (joinC '/' q1) = q1 := splitOnC_joinC '/' q1 h1 hc1
  have e2 : splitOnC '/' (joinC '/' q2) = q2 := splitOnC_joinC '/' q2 h2 hc2
  rw [← e1, ← e2, he]

theorem flatStrs_keys_nodup (d : NDict) (hwf : WFD d) (pfx : Str) :
    ((flatStrs d pfx).map Prod.fst).Nodup := by
  obtain ⟨hnd, hwfl⟩ := hwf
  have hseg := flatSegs_nodup d hnd hwfl
  rw [flatStrs, List.map_map]
  rw [show (Prod.fst ∘ fun q : List Str × Str => (pfx ++ joinC '/' q.1, q.2)) =
    ((fun q1 => pfx ++ joinC '/' q1) ∘ Prod.fst) from rfl]
  rw [← List.map_map]
  refine List.Nodup.map_on ?_ hseg
  intro a ha b hb hab
  have hmem : ∀ x ∈ (flatSegs d).map Prod.fst, x ≠ [] ∧ ∀ s ∈ x, ∀ ch ∈ s, ch ≠ '/' := by
    intro x hx
    rcases List.mem_map.mp hx with ⟨p, hp, hpe⟩
    constructor
    · rw [← hpe]
      exact flatSegs_keys_nonempty d p hp
    · intro s hs ch hch
      rw [← hpe] at hs
      exact ((flatSegs_comps d hwfl p hp s hs).2 ch hch).2
  obtain ⟨hane, hac⟩ := hmem a ha
  obtain ⟨hbne, hbc⟩ := hmem b hb
  exact joinSegs_inj a b hane hbne hac hbc (List.append_cancel_left hab)

theorem lookupA_mem_nodup {κ β : Type} [DecidableEq κ] (l : List (κ × β)) (k : κ) (v : β)
    (hnd : (l.map Prod.fst).Nodup) (hmem : (k, v) ∈ l) : lookupA l k = some v := by
  induction l with
  | nil => simp at hmem
  | cons q t ih =>
    obtain ⟨k', v'⟩ := q
    simp only [List.map_cons, List.nodup_cons] at hnd
    rcases List.mem_cons.mp hmem with h | h
    · injection h with h1 h2
      rw [lookupA, if_pos (by rw [h1])]
      rw [h2]
    · rw [lookupA]
      have hkne : k' ≠ k := by
        intro he
        refine hnd.1 ?_
        rw [he]
        exact List.mem_map.mpr ⟨(k, v), h, rfl⟩
      rw [if_neg hkne]
      exact ih hnd.2 h

theorem lookupA_none_iff {κ β : Type} [DecidableEq κ] (l : List (κ × β)) (k : κ) :
    lookupA l k = none ↔ k ∉ l.map Prod.fst := by
  induction l with
  | nil => simp [lookupA]
  | cons q t ih =>
    obtain ⟨k', v'⟩ := q
    rw [lookupA]
    by_cases hk : k' = k
    · rw [if_pos hk]
      simp [hk]
    · rw [if_neg hk]
      simp only [List.map_cons, List.mem_cons, ih]
      constructor
      · rintro h (h1 | h1)
        · exact hk h1.symm
        · exact h h1
      · intro h h1
        exact h (Or.inr h1)

theorem lookupA_perm {κ β : Type} [DecidableEq κ] (l1 l2 : List (κ × β))
    (hp : l1.Perm l2) (hnd : (l1.map Prod.fst).Nodup) (k : κ) :
    lookupA l1 k = lookupA l2 k := by
  have hnd2 : (l2.map Prod.fst).Nodup := ((hp.map Prod.fst).nodup_iff).mp hnd
  rcases h1 : lookupA l1 k with _ | v
  · rcases h2 : lookupA l2 k with _ | w
    · rfl
    · exfalso
      have hw := lookupA_some_mem l2 k w h2
      have : k ∈ l1.map Prod.fst :=
        List.mem_map.mpr ⟨(k, w), (hp.mem_iff).mpr hw, rfl⟩
      exact (lookupA_none_iff l1 k).mp h1 this
  · have hv := lookupA_some_mem l1 k v h1
    exact (lookupA_mem_nodup l2 k v hnd2 ((hp.mem_iff).mp hv)).symm

theorem dinsert_fresh {κ β : Type} [DecidableEq κ] (l : List (κ × β)) (k : κ) (v : β)
    (h : k ∉ l.map Prod.fst) : dinsert l k v = l ++ [(k, v)] := by
  induction l with
  | nil => rfl
  | cons q t ih =>
    obtain ⟨k', v'⟩ := q
    simp only [List.map_cons, List.mem_cons] at h
    rw [dinsert, if_neg (fun he => h (Or.inl he.symm)), List.cons_append,
      ih (fun hm => h (Or.inr hm))]

theorem updateD_append (acc sub : List (Str × Str))
    (hfresh : ∀ k ∈ sub.map Prod.fst, k ∉ acc.map Prod.fst)
    (hnd : (sub.map Prod.fst).Nodup) : updateD acc sub = acc ++ sub := by
  induction sub generalizing acc with
  | nil => simp [updateD]
  | cons q t ih =>
    obtain ⟨k, v⟩ := q
    simp only [List.map_cons, List.nodup_cons] at hnd
    rw [updateD, List.foldl_cons]
    rw [show dinsert acc k v = acc ++ [(k, v)] from
      dinsert_fresh acc k v (hfresh k (by simp))]
    have := ih (acc ++ [(k, v)]) ?_ hnd.2
    · rw [updateD] at this
      rw [this, List.append_assoc]
      rfl
    · intro k2 hk2
      simp only [List.map_append, List.mem_append, List.map_cons, List.map_nil]
      rintro (h | h)
      · exact hfresh k2 (by simp [hk2]) h
      · simp only [List.mem_singleton] at h
        rw [h] at hk2
        exact hnd.1 hk2

theorem blockOf_file (f : Str → Str → List (Str × Str)) (pfx n h : Str) :
    blockOf f pfx ("100644".data, n, h) = [(pfx ++ n, h)] := by
  rw [blockOf,
    if_pos (show "100".data.isPrefixOf "100644".data = true from by decide)]

theorem blockOf_dir (f : Str → Str → List (Str × Str)) (pfx n h : Str) :
    blockOf f pfx ("40000".data, n, h) = f h (pfx ++ n ++ "/".data) := by
  rw [blockOf,
    if_neg (show ¬"100".data.isPrefixOf "40000".data = true from by decide),
    if_pos (show "400".data.isPrefixOf "40000".data = true from by decide)]

theorem buildIdx_app (f : Str → Str → List (Str × Str)) (pfx : Str) :
    ∀ (es : List TEntry) (acc : List (Str × Str)),
      ((acc ++ es.flatMap (blockOf f pfx)).map Prod.fst).Nodup →
      buildIdxEntries f es pfx acc = acc ++ es.flatMap (blockOf f pfx) := by
  intro es
  induction es with
  | nil =>
    intro acc _
    simp [buildIdxEntries]
  | cons e rest ih =>
    intro acc hnd
    obtain ⟨m, n, h⟩ := e
    rw [List.flatMap_cons] at hnd ⊢
    have hb : blockOf f pfx (m, n, h) =
        if "100".data.isPrefixOf m then [(pfx ++ n, h)]
        else if "400".data.isPrefixOf m then f h (pfx ++ n ++ "/".data) else [] := rfl
    by_cases h1 : "100".data.isPrefixOf m
    · rw [hb, if_pos h1] at hnd ⊢
      rw [show buildIdxEntries f ((m, n, h) :: rest) pfx acc =
          buildIdxEntries f rest pfx (dinsert acc (pfx ++ n) h) from by
        simp only [buildIdxEntries]
        rw [if_pos h1]]
      have hfresh : pfx ++ n ∉ acc.map Prod.fst := by
        simp only [List.map_append, List.nodup_append] at hnd
        intro hmem
        exact hnd.2.2 hmem (by simp)
      rw [dinsert_fresh acc _ _ hfresh]
      rw [ih (acc ++ [(pfx ++ n, h)]) (by rw [List.append_assoc]; exact hnd)]
      rw [List.append_assoc]
    · by_cases h2 : "400".data.isPrefixOf m
      · rw [hb, if_neg h1, if_pos h2] at hnd ⊢
        rw [show buildIdxEntries f ((m, n, h) :: rest) pfx acc =
            buildIdxEntries f rest pfx (updateD acc (f h (pfx ++ n ++ "/".data))) from by
          simp only [buildIdxEntries]
          rw [if_neg h1, if_pos h2]]
        have hnd' := hnd
        simp only [List.map_append, List.nodup_append] at hnd'
        have hfresh : ∀ k ∈ (f h (pfx ++ n ++ "/".data)).map Prod.fst,
            k ∉ acc.map Prod.fst := by
          intro k hk hka
          exact hnd'.2.2 hka (List.mem_append_left _ hk)
        have hsubnd : ((f h (pfx ++ n ++ "/".data)).map Prod.fst).Nodup :=
          hnd'.2.1.1
        rw [updateD_append acc _ hfresh hsubnd]
        rw [ih (acc ++ f h (pfx ++ n ++ "/".data)) (by rw [List.append_assoc]; exact hnd)]
        rw [List.append_assoc]
      · rw [hb, if_neg h1, if_neg h2] at hnd ⊢
        rw [show buildIdxEntries f ((m, n, h) :: rest) pfx acc =
            buildIdxEntries f rest pfx acc from by
          simp only [buildIdxEntries]
          rw [if_neg h1, if_neg h2]]
        rw [ih acc (by simpa using hnd)]
        simp

theorem WFDl_mem : ∀ (d : NDict) (n : Str) (v : NVal), WFDl d → (n, v) ∈ d →
    NameOK n ∧ WFV v := by
  intro d
  induction d with
  | nil =>
    intro n v _ h
    simp at h
  | cons x t ih =>
    intro n v hwf hmem
    obtain ⟨n', v'⟩ := x
    simp only [WFDl] at hwf
    rcases List.mem_cons.mp hmem with h | h
    · injection h with h1 h2
      rw [h1, h2]
      exact hwf.1
    · exact ih n v hwf.2 h

theorem ndepthV_mem : ∀ (d : NDict) (n : Str) (v : NVal), (n, v) ∈ d →
    ndepthV v ≤ ndepth d := by
  intro d
  induction d with
  | nil =>
    intro n v h
    simp at h
  | cons x t ih =>
    intro n v hmem
    obtain ⟨n', v'⟩ := x
    simp only [ndepth]
    rcases List.mem_cons.mp hmem with h | h
    · injection h with h1 h2
      rw [h2]
      exact le_max_left _ _
    · exact le_trans (ih n v h) (le_max_right _ _)

theorem treeObjsItem_sub (sha1 : Bytes → Str) : ∀ (d : NDict) (n : Str) (v : NVal),
    (n, v) ∈ d → ∀ o ∈ treeObjsItem sha1 v, o ∈ treeObjsSub sha1 d := by
  intro d
  induction d with
  | nil =>
    intro n v h
    simp at h
  | cons x t ih =>
    intro n v hmem o ho
    obtain ⟨n', v'⟩ := x
    simp only [treeObjsSub]
    rcases List.mem_cons.mp hmem with h | h
    · injection h with h1 h2
      rw [h2] at ho
      exact List.mem_append_left _ ho
    · exact List.mem_append_right _ (ih n v h o ho)

theorem treeEntryItem_ok (sha1 : Bytes → Str) (hhex : ∀ b, Hex40 (sha1 b))
    (n : Str) (v : NVal) (hn : NameOK n) (hv : WFV v) :
    EntryOK (treeEntryItem sha1 n v) := by
  cases v with
  | str h =>
    simp only [WFV] at hv
    simp only [treeEntryItem]
    refine ⟨show ∀ ch ∈ "100644".data, ch.toNat ≠ 0 ∧ ch ≠ ' ' from by decide, ?_, hv⟩
    intro ch hch
    exact (hn.2 ch hch).1
  | dict sub =>
    simp only [treeEntryItem]
    refine ⟨show ∀ ch ∈ "40000".data, ch.toNat ≠ 0 ∧ ch ≠ ' ' from by decide, ?_, hhex _⟩
    intro ch hch
    exact (hn.2 ch hch).1

theorem treeEntriesOf_ok (sha1 : Bytes → Str) (hhex : ∀ b, Hex40 (sha1 b)) :
    ∀ (d : NDict), WFDl d → ∀ e ∈ treeEntriesOf sha1 d, EntryOK e := by
  intro d
  induction d with
  | nil =>
    intro _ e he
    simp [treeEntriesOf] at he
  | cons x t ih =>
    intro hwf e he
    obtain ⟨n, v⟩ := x
    simp only [WFDl] at hwf
    simp only [treeEntriesOf] at he
    rcases List.mem_cons.mp he with h | h
    · rw [h]
      exact treeEntryItem_ok sha1 hhex n v hwf.1.1 hwf.1.2
    · exact ih hwf.2 e h

theorem flatMap_blockOf_perm (sha1 : Bytes → Str) (f : Str → Str → List (Str × Str))
    (pfx : Str) : ∀ (d : NDict), WFDl d →
    (∀ n sub, (n, NVal.dict sub) ∈ d →
      (f (treeHashOfDict sha1 sub) (pfx ++ n ++ "/".data)).Perm
        (flatStrs sub (pfx ++ n ++ "/".data))) →
    ((treeEntriesOf sha1 d).flatMap (blockOf f pfx)).Perm (flatStrs d pfx) := by
  intro d
  induction d with
  | nil =>
    intro _ _
    simp [treeEntriesOf, flatStrs, flatSegs]
  | cons x t ih =>
    intro hwf hf
    obtain ⟨n, v⟩ := x
    simp only [WFDl] at hwf
    have htail := ih hwf.2 (fun n2 sub2 hm => hf n2 sub2 (List.mem_cons_of_mem _ hm))
    have hflat : flatStrs ((n, v) :: t) pfx =
        (flatItem n v).map (fun q => (pfx ++ joinC '/' q.1, q.2)) ++ flatStrs t pfx := by
      simp only [flatStrs, flatSegs, List.map_append]
    simp only [treeEntriesOf, List.flatMap_cons]
    rw [hflat]
    refine List.Perm.append ?_ htail
    cases v with
    | str h =>
      simp only [treeEntryItem, flatItem]
      rw [blockOf_file]
      simp only [List.map_cons, List.map_nil, joinC]
      exact List.Perm.refl _
    | dict sub =>
      simp only [treeEntryItem, flatItem]
      rw [blockOf_dir]
      have hp := hf n sub (List.mem_cons_self _ _)
      rw [treeHashOfDict] at hp
      have heq : (flatSegs sub).map
          ((fun q : List Str × Str => (pfx ++ joinC '/' q.1, q.2)) ∘
            (fun q : List Str × Str => (n :: q.1, q.2))) =
          flatStrs sub (pfx ++ n ++ "/".data) := by
        rw [flatStrs]
        refine List.map_congr_left ?_
        intro q hq
        have hne := flatSegs_keys_nonempty sub q hq
        simp only [Function.comp_apply]
        rw [joinC_cons_of_ne_nil '/' n q.1 hne]
        simp [List.append_assoc]
      rw [List.map_map, heq]
      exact hp

/-- The core of claim C1's second half: under a lossless compression pair,
forty-hex digests and a store holding every tree object of a well-formed
nested mapping, `build_index_from_tree` run from the mapping's root hash
recovers exactly the flattening of the mapping (as a mapping: up to order,
with no duplicate keys on either side). -/
theorem build_index_F_perm (sha1 : Bytes → Str) (compress : Bytes → Bytes)
    (decompress : Bytes → Option Bytes) (rt : ∀ b, decompress (compress b) = some b)
    (hhex : ∀ b, Hex40 (sha1 b)) (st : Store) :
    ∀ (fu : Nat) (d : NDict) (pfx : Str), WFD d → ndepth d < fu →
      (∀ o ∈ treeObjsOf sha1 d,
        lookupA st (objHashHex sha1 o) = some (gitSerialize compress o)) →
      (build_index_F decompress st fu (treeHashOfDict sha1 d) pfx).Perm
        (flatStrs d pfx) := by
  intro fu
  induction fu with
  | zero =>
    intro d pfx _ hlt _
    omega
  | succ fu ih =>
    intro d pfx hwf hlt hst
    have hload : load_object decompress st (treeHashOfDict sha1 d) =
        some (treeObj (treeEntriesOf sha1 d)) := by
      have hmem : treeObj (treeEntriesOf sha1 d) ∈ treeObjsOf sha1 d := by
        rw [treeObjsOf]
        exact List.mem_append_right _ (List.mem_singleton.mpr rfl)
      have hroot := hst _ hmem
      rw [treeHashOfDict, load_object, hroot]
      exact gitDeserialize_gitSerialize compress decompress rt _ (by
        show ∀ ch ∈ "tree".data, ch.toNat ≠ 0 ∧ ch ≠ ' '
        decide)
    have hcontent : tree_from_content (treeObj (treeEntriesOf sha1 d)).content =
        some (List.insertionSort entryLE (treeEntriesOf sha1 d)) :=
      tree_from_content_serialize _ (treeEntriesOf_ok sha1 hhex d hwf.2)
    simp only [build_index_F, hload, hcontent]
    have hperm1 : ((treeEntriesOf sha1 d).flatMap
        (blockOf (build_index_F decompress st fu) pfx)).Perm (flatStrs d pfx) := by
      refine flatMap_blockOf_perm sha1 _ pfx d hwf.2 ?_
      intro n sub hmem
      obtain ⟨hn, hv⟩ := WFDl_mem d n _ hwf.2 hmem
      simp only [WFV] at hv
      refine ih sub (pfx ++ n ++ "/".data) ⟨hv.2.1, hv.2.2⟩ ?_ ?_
      · have h1 : ndepthV (.dict sub) ≤ ndepth d := ndepthV_mem d n _ hmem
        simp only [ndepthV] at h1
        omega
      · intro o ho
        refine hst o ?_
        rw [treeObjsOf]
        refine List.mem_append_left _ ?_
        refine treeObjsItem_sub sha1 d n (.dict sub) hmem o ?_
        simp only [treeObjsItem]
        rw [treeObjsOf] at ho
        exact ho
    have hperm2 : ((List.insertionSort entryLE (treeEntriesOf sha1 d)).flatMap
        (blockOf (build_index_F decompress st fu) pfx)).Perm
        ((treeEntriesOf sha1 d).flatMap
          (blockOf (build_index_F decompress st fu) pfx)) :=
      (List.perm_insertionSort entryLE _).flatMap_right _
    have hP := hperm2.trans hperm1
    have hnodup : (((List.insertionSort entryLE (treeEntriesOf sha1 d)).flatMap
        (blockOf (build_index_F decompress st fu) pfx)).map Prod.fst).Nodup :=
      ((hP.map Prod.fst).nodup_iff).mpr (flatStrs_keys_nodup d hwf pfx)
    rw [buildIdx_app _ pfx _ [] (by
      rw [List.nil_append]
      exact hnodup)]
    rw [List.nil_append]
    exact hP

/-! ## Claim C1, part D: regrouping the flat index into the nested
mapping.  The index items are classified by their split paths. -/

/-- The index items with their keys split into path segments. -/
def segsOf (L : List (Str × Str)) : List (List Str × Str) :=
  L.map (fun kv => (splitOnC '/' kv.1, kv.2))

/-- The single-segment items, keyed by their one segment. -/
def singlesOf (L : List (Str × Str)) : List (Str × Str) :=
  L.filterMap (fun kv =>
    match splitOnC '/' kv.1 with
    | [p] => some (p, kv.2)
    | _ => none)

/-- The tails of the multi-segment items whose first segment is `p`. -/
def multisOf (L : List (Str × Str)) (p : Str) : List (List Str × Str) :=
  L.filterMap (fun kv =>
    match splitOnC '/' kv.1 with
    | p' :: q :: rest => if p' = p then some (q :: rest, kv.2) else none
    | _ => none)

/-- The first segments of the multi-segment items. -/
def multiHeads (L : List (Str × Str)) : List Str :=
  L.filterMap (fun kv =>
    match splitOnC '/' kv.1 with
    | p :: _ :: _ => some p
    | _ => none)

theorem joinC_cons_cons (c : Char) (x : Char) (hd : Str) (t : List Str) :
    joinC c ((x :: hd) :: t) = x :: joinC c (hd :: t) := by
  cases t with
  | nil => rfl
  | cons a b => rfl

theorem flatSegs_append : ∀ (a b : NDict),
    flatSegs (a ++ b) = flatSegs a ++ flatSegs b := by
  intro a b
  induction a with
  | nil => simp [flatSegs]
  | cons x t ih =>
    obtain ⟨n, v⟩ := x
    rw [List.cons_append]
    simp only [flatSegs]
    rw [ih, List.append_assoc]

theorem mem_flatSegs_of_item : ∀ (d : NDict) (n : Str) (v : NVal), (n, v) ∈ d →
    ∀ q ∈ flatItem n v, q ∈ flatSegs d := by
  intro d
  induction d with
  | nil =>
    intro n v h
    simp at h
  | cons x t ih =>
    intro n v hmem q hq
    obtain ⟨n', v'⟩ := x
    simp only [flatSegs]
    rcases List.mem_cons.mp hmem with h | h
    · injection h with h1 h2
      rw [h1, h2] at hq
      exact List.mem_append_left _ hq
    · exact List.mem_append_right _ (ih n v h q hq)

theorem flatSegs_ne_nil : ∀ (d : NDict), d ≠ [] → WFDl d → flatSegs d ≠ [] := by
  refine flatSegs.induct (fun d => d ≠ [] → WFDl d → flatSegs d ≠ [])
    (fun n v => WFV v → flatItem n v ≠ []) ?_ ?_ ?_ ?_
  · intro n h _
    simp [flatItem]
  · intro n sub ih hwf
    simp only [WFV] at hwf
    simp only [flatItem]
    intro hx
    exact ih hwf.1 hwf.2.2 (List.map_eq_nil_iff.mp hx)
  · intro h _
    exact absurd rfl h
  · intro n v t ihv iht _ hwf
    simp only [WFDl] at hwf
    simp only [flatSegs]
    intro hx
    rw [List.append_eq_nil] at hx
    exact ihv hwf.1.2 hx.1

theorem lookupA_split {κ β : Type} [DecidableEq κ] :
    ∀ (d : List (κ × β)) (k : κ) (v0 : β), (d.map Prod.fst).Nodup →
      lookupA d k = some v0 →
      ∃ d1 d2, d = d1 ++ (k, v0) :: d2 ∧ k ∉ d1.map Prod.fst ∧
        ∀ v, dinsert d k v = d1 ++ (k, v) :: d2 := by
  intro d
  induction d with
  | nil =>
    intro k v0 _ h
    simp [lookupA] at h
  | cons q t ih =>
    intro k v0 hnd h
    obtain ⟨k', v'⟩ := q
    simp only [List.map_cons, List.nodup_cons] at hnd
    rw [lookupA] at h
    by_cases hk : k' = k
    · rw [if_pos hk] at h
      injection h with h1
      refine ⟨[], t, ?_, by simp, ?_⟩
      · rw [hk, h1]
        simp
      · intro v
        rw [dinsert, if_pos hk]
        simp
    · rw [if_neg hk] at h
      obtain ⟨d1, d2, he, hk1, hdi⟩ := ih k v0 hnd.2 h
      refine ⟨(k', v') :: d1, d2, by rw [he]; rfl, ?_, ?_⟩
      · simp only [List.map_cons, List.mem_cons]
        rintro (hx | hx)
        · exact hk hx.symm
        · exact hk1 hx
      · intro v
        rw [dinsert, if_neg hk, hdi v]
        rfl

theorem WFDl_append : ∀ (a b : NDict), WFDl (a ++ b) ↔ WFDl a ∧ WFDl b := by
  intro a b
  induction a with
  | nil => simp [WFDl]
  | cons x t ih =>
    obtain ⟨n, v⟩ := x
    simp only [List.cons_append, WFDl, ih]
    tauto

theorem foldl_dinsert_fresh {κ β : Type} [DecidableEq κ] :
    ∀ (l acc : List (κ × β)),
      (∀ k ∈ l.map Prod.fst, k ∉ acc.map Prod.fst) → (l.map Prod.fst).Nodup →
      l.foldl (fun a kv => dinsert a kv.1 kv.2) acc = acc ++ l := by
  intro l
  induction l with
  | nil =>
    intro acc _ _
    simp
  | cons q t ih =>
    intro acc hfresh hnd
    obtain ⟨k, v⟩ := q
    simp only [List.map_cons, List.nodup_cons] at hnd
    rw [List.foldl_cons]
    rw [show dinsert acc k v = acc ++ [(k, v)] from
      dinsert_fresh acc k v (hfresh k (by simp))]
    rw [ih (acc ++ [(k, v)]) ?_ hnd.2]
    · rw [List.append_assoc]
      rfl
    · intro k2 hk2
      simp only [List.map_append, List.mem_append, List.map_cons, List.map_nil]
      rintro (h | h)
      · exact hfresh k2 (by simp [hk2]) h
      · simp only [List.mem_singleton] at h
        rw [h] at hk2
        exact hnd.1 hk2

theorem flatMap_congr_perm {α β : Type} (l : List α) (f g : α → List β)
    (h : ∀ x ∈ l, (f x).Perm (g x)) : (l.flatMap f).Perm (l.flatMap g) := by
  induction l with
  | nil => simp
  | cons x t ih =>
    simp only [List.flatMap_cons]
    exact (h x (by simp)).append (ih (fun y hy => h y (by simp [hy])))

theorem insertSub_spec : ∀ (ps : List Str) (d : NDict) (h : Str),
    ps ≠ [] → (∀ s ∈ ps, NameOK s) → Hex40 h → WFD d →
    (∀ q ∈ flatSegs d, ¬ q.1 <+: ps ∧ ¬ ps <+: q.1) →
    ∃ d2, insertSub d ps h = some d2 ∧ WFD d2 ∧
      (flatSegs d2).Perm ((ps, h) :: flatSegs d) := by
  intro ps
  induction ps with
  | nil =>
    intro d h hne _ _ _ _
    exact absurd rfl hne
  | cons p tl ih =>
    intro d h _ hname hh hwf hconf
    cases tl with
    | nil =>
      have hfresh : p ∉ d.map Prod.fst := by
        intro hmem
        rcases hv : lookupA d p with _ | v0
        · exact (lookupA_none_iff d p).mp hv hmem
        · have hmem0 := lookupA_some_mem d p v0 hv
          obtain ⟨hn0, hwv0⟩ := WFDl_mem d p v0 hwf.2 hmem0
          cases v0 with
          | str s =>
            have hq : ([p], s) ∈ flatSegs d :=
              mem_flatSegs_of_item d p (.str s) hmem0 _ (by simp [flatItem])
            exact (hconf _ hq).1 (List.prefix_refl _)
          | dict sub =>
            simp only [WFV] at hwv0
            rcases hq0 : flatSegs sub with _ | ⟨q0, qt⟩
            · exact flatSegs_ne_nil sub hwv0.1 hwv0.2.2 hq0
            · have hq : (p :: q0.1, q0.2) ∈ flatSegs d := by
                refine mem_flatSegs_of_item d p (.dict sub) hmem0 _ ?_
                simp only [flatItem]
                refine List.mem_map.mpr ⟨q0, ?_, rfl⟩
                rw [hq0]
                simp
              exact (hconf _ hq).2 ⟨q0.1, rfl⟩
      refine ⟨d ++ [(p, .str h)], ?_, ⟨?_, ?_⟩, ?_⟩
      · simp only [insertSub]
        rw [dinsert_fresh d p _ hfresh]
      · simp only [List.map_append, List.nodup_append, List.map_cons, List.map_nil]
        refine ⟨hwf.1, by simp, ?_⟩
        intro a ha hb
        simp only [List.mem_singleton] at hb
        rw [hb] at ha
        exact hfresh ha
      · rw [WFDl_append]
        refine ⟨hwf.2, ?_⟩
        simp only [WFDl, WFV]
        exact ⟨⟨hname p (by simp), hh⟩, trivial⟩
      · rw [flatSegs_append]
        rw [show flatSegs [(p, NVal.str h)] = [([p], h)] from rfl]
        exact List.perm_append_singleton _ _
    | cons q rest =>
      have hnames' : ∀ s ∈ q :: rest, NameOK s :=
        fun s hs => hname s (List.mem_cons_of_mem _ hs)
      rcases hv : lookupA d p with _ | v0
      · have hfresh : p ∉ d.map Prod.fst := (lookupA_none_iff d p).mp hv
        obtain ⟨c2, hc2, hwfc2, hpc2⟩ := ih [] h (by simp) hnames' hh
          ⟨by simp, by simp [WFDl]⟩ (by simp [flatSegs])
        have hc2p : (flatSegs c2).Perm [(q :: rest, h)] := by
          refine hpc2.trans ?_
          rw [show flatSegs ([] : NDict) = [] from rfl]
        have hc2ne : c2 ≠ [] := by
          intro he
          rw [he] at hc2p
          have := hc2p.length_eq
          simp [flatSegs] at this
        refine ⟨d ++ [(p, .dict c2)], ?_, ⟨?_, ?_⟩, ?_⟩
        · simp only [insertSub, hv, hc2]
          rw [dinsert_fresh d p _ hfresh]
        · simp only [List.map_append, List.nodup_append, List.map_cons, List.map_nil]
          refine ⟨hwf.1, by simp, ?_⟩
          intro a ha hb
          simp only [List.mem_singleton] at hb
          rw [hb] at ha
          exact hfresh ha
        · rw [WFDl_append]
          refine ⟨hwf.2, ?_⟩
          simp only [WFDl, WFV]
          exact ⟨⟨hname p (by simp), hc2ne, hwfc2.1, hwfc2.2⟩, trivial⟩
        · rw [flatSegs_append]
          rw [show flatSegs [(p, NVal.dict c2)] =
            (flatSegs c2).map (fun q2 => (p :: q2.1, q2.2)) from by
              simp [flatSegs, flatItem]]
          refine List.Perm.trans ?_ (List.perm_append_singleton _ _)
          refine List.Perm.append_left _ ?_
          refine (hc2p.map _).trans ?_
          simp
      · cases v0 with
        | str s =>
          exfalso
          have hmem0 := lookupA_some_mem d p _ hv
          have hq : ([p], s) ∈ flatSegs d :=
            mem_flatSegs_of_item d p (.str s) hmem0 _ (by simp [flatItem])
          exact (hconf _ hq).1 ⟨q :: rest, rfl⟩
        | dict sub =>
          have hmem0 := lookupA_some_mem d p _ hv
          obtain ⟨hn0, hwv0⟩ := WFDl_mem d p _ hwf.2 hmem0
          simp only [WFV] at hwv0
          have hconf' : ∀ q' ∈ flatSegs sub,
              ¬ q'.1 <+: (q :: rest) ∧ ¬ (q :: rest) <+: q'.1 := by
            intro q' hq'
            have hqd : (p :: q'.1, q'.2) ∈ flatSegs d :=
              mem_flatSegs_of_item d p (.dict sub) hmem0 _
                (List.mem_map.mpr ⟨q', hq', rfl⟩)
            obtain ⟨h1, h2⟩ := hconf _ hqd
            constructor
            · intro hp
              obtain ⟨t2, ht2⟩ := hp
              exact h1 ⟨t2, by rw [List.cons_append, ht2]⟩
            · intro hp
              obtain ⟨t2, ht2⟩ := hp
              exact h2 ⟨t2, by rw [List.cons_append, ht2]⟩
          obtain ⟨c2, hc2, hwfc2, hpc2⟩ := ih sub h (by simp) hnames' hh
            ⟨hwv0.2.1, hwv0.2.2⟩ hconf'
          have hc2ne : c2 ≠ [] := by
            intro he
            rw [he] at hpc2
            have := hpc2.length_eq
            simp [flatSegs] at this
          obtain ⟨d1, dd2, hde, hknotin, hdins⟩ := lookupA_split d p (.dict sub) hwf.1 hv
          refine ⟨d1 ++ (p, .dict c2) :: dd2, ?_, ⟨?_, ?_⟩, ?_⟩
          · simp only [insertSub, hv, hc2]
            rw [hdins]
          · rw [hde] at hwf
            have hk1 := hwf.1
            simp only [List.map_append, List.map_cons] at hk1 ⊢
            exact hk1
          · rw [hde] at hwf
            have hw := hwf.2
            rw [WFDl_append] at hw ⊢
            refine ⟨hw.1, ?_⟩
            have hw2 := hw.2
            simp only [WFDl, WFV] at hw2 ⊢
            exact ⟨⟨hw2.1.1, hc2ne, hwfc2.1, hwfc2.2⟩, hw2.2⟩
          · rw [hde]
            rw [flatSegs_append, flatSegs_append]
            simp only [flatSegs, flatItem]
            have hmapped : ((flatSegs c2).map (fun q2 => (p :: q2.1, q2.2))).Perm
                ((p :: q :: rest, h) ::
                  (flatSegs sub).map (fun q2 => (p :: q2.1, q2.2))) := by
              refine (hpc2.map _).trans ?_
              simp
            refine List.Perm.trans (List.Perm.append_left _
              (List.Perm.append_right _ hmapped)) ?_
            rw [show ((p :: q :: rest, h) ::
                (flatSegs sub).map (fun q2 => (p :: q2.1, q2.2))) ++ flatSegs dd2 =
              (p :: q :: rest, h) ::
                ((flatSegs sub).map (fun q2 => (p :: q2.1, q2.2)) ++ flatSegs dd2)
              from rfl]
            exact List.perm_middle

theorem flatMap_congr_mem {α β : Type} : ∀ (l : List α) (f g : α → List β),
    (∀ x ∈ l, f x = g x) → l.flatMap f = l.flatMap g := by
  intro l f g h
  induction l with
  | nil => rfl
  | cons x t ih =>
    simp only [List.flatMap_cons]
    rw [h x (by simp), ih (fun y hy => h y (by simp [hy]))]

theorem perm_shuffle {α : Type} (x : α) (S A M C : List α) :
    (x :: (S ++ (A ++ (M ++ C)))).Perm (S ++ (A ++ ((x :: M) ++ C))) := by
  have h1 : S ++ (A ++ ((x :: M) ++ C)) = (S ++ A) ++ (x :: (M ++ C)) := by
    simp [List.append_assoc]
  have h2 : x :: (S ++ (A ++ (M ++ C))) = x :: ((S ++ A) ++ (M ++ C)) := by
    simp [List.append_assoc]
  rw [h1, h2]
  exact List.perm_middle.symm

theorem multisOf_mem (L : List (Str × Str)) (p : Str) (q' : List Str × Str)
    (h : q' ∈ multisOf L p) :
    ∃ kv ∈ L, splitOnC '/' kv.1 = p :: q'.1 ∧ kv.2 = q'.2 ∧ q'.1 ≠ [] := by
  rw [multisOf, List.mem_filterMap] at h
  obtain ⟨kv, hkv, hf⟩ := h
  rcases hs : splitOnC '/' kv.1 with _ | ⟨p', t⟩
  · simp only [hs] at hf
    exact Option.noConfusion hf
  · rcases t with _ | ⟨q2, rest⟩
    · simp only [hs] at hf
      exact Option.noConfusion hf
    · simp only [hs] at hf
      by_cases hp : p' = p
      · rw [if_pos hp] at hf
        injection hf with hf2
        refine ⟨kv, hkv, ?_, ?_, ?_⟩
        · rw [← hf2]
          show splitOnC '/' kv.1 = p :: (q2 :: rest)
          rw [hs, hp]
        · rw [← hf2]
        · rw [← hf2]
          simp
      · rw [if_neg hp] at hf
        exact absurd hf (by simp)

theorem singlesOf_mem (L : List (Str × Str)) (pv : Str × Str)
    (h : pv ∈ singlesOf L) :
    ∃ kv ∈ L, splitOnC '/' kv.1 = [pv.1] ∧ kv.2 = pv.2 := by
  rw [singlesOf, List.mem_filterMap] at h
  obtain ⟨kv, hkv, hf⟩ := h
  rcases hs : splitOnC '/' kv.1 with _ | ⟨p', t⟩
  · simp only [hs] at hf
    exact Option.noConfusion hf
  · rcases t with _ | ⟨q2, rest⟩
    · simp only [hs] at hf
      injection hf with hf2
      refine ⟨kv, hkv, ?_, ?_⟩
      · rw [← hf2]
        show splitOnC '/' kv.1 = [p']
        exact hs
      · rw [← hf2]
    · simp only [hs] at hf
      exact Option.noConfusion hf

theorem multiHeads_of_multi (L : List (Str × Str)) (kv : Str × Str) (hkv : kv ∈ L)
    (p : Str) (q2 : Str) (rest : List Str)
    (hs : splitOnC '/' kv.1 = p :: q2 :: rest) : p ∈ multiHeads L := by
  rw [multiHeads, List.mem_filterMap]
  exact ⟨kv, hkv, by simp [hs]⟩

theorem segs_partition : ∀ (L : List (Str × Str)) (heads : List Str), heads.Nodup →
    (∀ p ∈ multiHeads L, p ∈ heads) →
    (segsOf L).Perm ((singlesOf L).map (fun pv => ([pv.1], pv.2)) ++
      heads.flatMap (fun p => (multisOf L p).map (fun q2 => (p :: q2.1, q2.2)))) := by
  intro L
  induction L with
  | nil =>
    intro heads _ _
    have h0 : ∀ p ∈ heads, (multisOf ([] : List (Str × Str)) p).map
        (fun q2 : List Str × Str => (p :: q2.1, q2.2)) = [] := by
      intro p _
      simp [multisOf]
    rw [flatMap_congr_mem heads _ _ h0]
    simp [segsOf, singlesOf]
  | cons kv L ih =>
    intro heads hnd hcov
    rcases hs : splitOnC '/' kv.1 with _ | ⟨p, t⟩
    · exact absurd hs (splitOnC_ne_nil '/' kv.1)
    rcases t with _ | ⟨q, rest⟩
    · have h1 : segsOf (kv :: L) = ([p], kv.2) :: segsOf L := by
        simp [segsOf, hs]
      have h2 : singlesOf (kv :: L) = (p, kv.2) :: singlesOf L := by
        simp [singlesOf, hs]
      have h3 : ∀ p' ∈ heads, (multisOf (kv :: L) p').map
          (fun q2 : List Str × Str => (p' :: q2.1, q2.2)) =
          (multisOf L p').map (fun q2 : List Str × Str => (p' :: q2.1, q2.2)) := by
        intro p' _
        simp [multisOf, hs]
      have h4 : multiHeads (kv :: L) = multiHeads L := by
        simp [multiHeads, hs]
      rw [h1, h2, flatMap_congr_mem heads _ _ h3]
      simp only [List.map_cons, List.cons_append]
      exact List.Perm.cons _ (ih heads hnd (by rw [h4] at hcov; exact hcov))
    · have h1 : segsOf (kv :: L) = (p :: q :: rest, kv.2) :: segsOf L := by
        simp [segsOf, hs]
      have h2 : singlesOf (kv :: L) = singlesOf L := by
        simp [singlesOf, hs]
      have h3eq : multisOf (kv :: L) p = (q :: rest, kv.2) :: multisOf L p := by
        simp [multisOf, hs]
      have h3ne : ∀ p', p' ≠ p → multisOf (kv :: L) p' = multisOf L p' := by
        intro p' hne
        simp [multisOf, hs, Ne.symm hne]
      have hpmem : p ∈ heads := hcov p (by simp [multiHeads, hs])
      obtain ⟨s1, s2, hheads⟩ := List.append_of_mem hpmem
      have hnd2 : (s1 ++ p :: s2).Nodup := by rw [← hheads]; exact hnd
      have hps : ∀ p' ∈ s1, p' ≠ p := by
        intro p' hp' he
        rw [List.nodup_append] at hnd2
        exact hnd2.2.2 hp' (by rw [he]; simp)
      have hps2 : ∀ p' ∈ s2, p' ≠ p := by
        intro p' hp' he
        rw [List.nodup_append, List.nodup_cons] at hnd2
        rw [he] at hp'
        exact hnd2.2.1.1 hp'
      have hcovL : ∀ p' ∈ multiHeads L, p' ∈ heads := by
        intro p' hp'
        refine hcov p' ?_
        rw [show multiHeads (kv :: L) = p :: multiHeads L from by simp [multiHeads, hs]]
        simp [hp']
      have ihL := ih heads hnd hcovL
      rw [hheads] at ihL ⊢
      rw [List.flatMap_append, List.flatMap_cons] at ihL ⊢
      rw [flatMap_congr_mem s1 _ _ (fun p' hp' => by rw [h3ne p' (hps p' hp')])]
      rw [flatMap_congr_mem s2 _ _ (fun p' hp' => by rw [h3ne p' (hps2 p' hp')])]
      rw [h1, h2, h3eq]
      simp only [List.map_cons]
      refine (List.Perm.cons _ ihL).trans ?_
      exact perm_shuffle _ _ _ _ _

theorem multisOf_ne_nil_head (L : List (Str × Str)) (p : Str)
    (h : multisOf L p ≠ []) : p ∈ multiHeads L := by
  rcases hx : multisOf L p with _ | ⟨q', t'⟩
  · exact absurd hx h
  · have hq' : q' ∈ multisOf L p := by rw [hx]; simp
    obtain ⟨kv, hkv, hs, _, hne⟩ := multisOf_mem L p q' hq'
    rcases hq1 : q'.1 with _ | ⟨x, xs⟩
    · exact absurd hq1 hne
    · exact multiHeads_of_multi L kv hkv p x xs (by rw [hs, hq1])

theorem buildRootDicts_spec :
    ∀ (L : List (Str × Str)),
      (∀ k ∈ L.map Prod.fst, ∀ s ∈ splitOnC '/' k, NameOK s) →
      (∀ v ∈ L.map Prod.snd, Hex40 v) →
      (L.map Prod.fst).Pairwise (fun k1 k2 =>
        ¬ splitOnC '/' k1 <+: splitOnC '/' k2 ∧
        ¬ splitOnC '/' k2 <+: splitOnC '/' k1) →
      ∃ dirs, buildRootDicts L = some (singlesOf L, dirs) ∧
        (dirs.map Prod.fst).Nodup ∧
        (∀ p ∈ dirs.map Prod.fst, p ∉ (singlesOf L).map Prod.fst) ∧
        (∀ p ∈ multiHeads L, p ∈ dirs.map Prod.fst) ∧
        (∀ pd ∈ dirs, pd.2 ≠ [] ∧ NameOK pd.1 ∧ WFD pd.2 ∧
          (flatSegs pd.2).Perm (multisOf L pd.1)) := by
  intro L
  induction L using List.reverseRecOn with
  | nil =>
    intro _ _ _
    exact ⟨[], rfl, by simp, by simp, by simp [multiHeads], by simp⟩
  | append_singleton L kv ih =>
    intro h1 h2 hpw
    have h1L : ∀ k ∈ L.map Prod.fst, ∀ s ∈ splitOnC '/' k, NameOK s :=
      fun k hk => h1 k (by simp only [List.map_append, List.mem_append]; exact Or.inl hk)
    have h2L : ∀ v ∈ L.map Prod.snd, Hex40 v :=
      fun v hv => h2 v (by simp only [List.map_append, List.mem_append]; exact Or.inl hv)
    rw [List.map_append, List.map_cons, List.map_nil] at hpw
    obtain ⟨hpwL, _, hrel0⟩ := List.pairwise_append.mp hpw
    have hrel : ∀ k ∈ L.map Prod.fst,
        ¬ splitOnC '/' k <+: splitOnC '/' kv.1 ∧
        ¬ splitOnC '/' kv.1 <+: splitOnC '/' k :=
      fun k hk => hrel0 k hk kv.1 (by simp)
    obtain ⟨dirs, hbr, hndD, hdisj, hcov, hinv⟩ := ih h1L h2L hpwL
    have hkvname : ∀ s ∈ splitOnC '/' kv.1, NameOK s := h1 kv.1 (by simp)
    have hkvhex : Hex40 kv.2 := h2 kv.2 (by simp)
    have hstep : buildRootDicts (L ++ [kv]) = buildRootStep (buildRootDicts L) kv := by
      rw [buildRootDicts, buildRootDicts, List.foldl_append]
      rfl
    rcases hs : splitOnC '/' kv.1 with _ | ⟨p, t⟩
    · exact absurd hs (splitOnC_ne_nil '/' kv.1)
    have hpname : NameOK p := hkvname p (by rw [hs]; simp)
    rcases t with _ | ⟨q, rest⟩
    · have hS : singlesOf (L ++ [kv]) = singlesOf L ++ [(p, kv.2)] := by
        simp [singlesOf, List.filterMap_append, hs]
      have hM : ∀ p', multisOf (L ++ [kv]) p' = multisOf L p' := by
        intro p'
        simp [multisOf, List.filterMap_append, hs]
      have hH : multiHeads (L ++ [kv]) = multiHeads L := by
        simp [multiHeads, List.filterMap_append, hs]
      have hfreshp : p ∉ (singlesOf L).map Prod.fst := by
        intro hmem
        rcases List.mem_map.mp hmem with ⟨pv, hpv, hpe⟩
        obtain ⟨kv', hkv', hs', _⟩ := singlesOf_mem L pv hpv
        have hr := hrel kv'.1 (List.mem_map.mpr ⟨kv', hkv', rfl⟩)
        refine hr.1 ?_
        rw [hs', hs, hpe]
      refine ⟨dirs, ?_, hndD, ?_, ?_, ?_⟩
      · rw [hstep, hbr]
        simp only [buildRootStep, hs]
        rw [dinsert_fresh _ _ _ hfreshp, hS]
      · intro p' hp'
        rw [hS]
        simp only [List.map_append, List.map_cons, List.map_nil, List.mem_append]
        rintro (hc | hc)
        · exact hdisj p' hp' hc
        · simp only [List.mem_singleton] at hc
          rw [hc] at hp'
          rcases List.mem_map.mp hp' with ⟨pd, hpd, hpe⟩
          obtain ⟨hpdne, _, hpdwf, hpdperm⟩ := hinv pd hpd
          have hfne : flatSegs pd.2 ≠ [] := flatSegs_ne_nil pd.2 hpdne hpdwf.2
          have hmne : multisOf L pd.1 ≠ [] := by
            intro he
            rw [he] at hpdperm
            exact hfne hpdperm.eq_nil
          rcases hx : multisOf L pd.1 with _ | ⟨q', t'⟩
          · exact hmne hx
          have hq' : q' ∈ multisOf L pd.1 := by rw [hx]; simp
          obtain ⟨kv', hkv', hs', _, _⟩ := multisOf_mem L pd.1 q' hq'
          rw [hpe] at hs'
          have hr := hrel kv'.1 (List.mem_map.mpr ⟨kv', hkv', rfl⟩)
          refine hr.2 ?_
          rw [hs', hs]
          exact ⟨q'.1, rfl⟩
      · intro p' hp'
        rw [hH] at hp'
        exact hcov p' hp'
      · intro pd hpd
        obtain ⟨a, b, c, d4⟩ := hinv pd hpd
        exact ⟨a, b, c, by rw [hM]; exact d4⟩
    · have hS : singlesOf (L ++ [kv]) = singlesOf L := by
        simp [singlesOf, List.filterMap_append, hs]
      have hMp : multisOf (L ++ [kv]) p = multisOf L p ++ [(q :: rest, kv.2)] := by
        simp [multisOf, List.filterMap_append, hs]
      have hMne : ∀ p', p' ≠ p → multisOf (L ++ [kv]) p' = multisOf L p' := by
        intro p' hne
        simp [multisOf, List.filterMap_append, hs, Ne.symm hne]
      have hH : multiHeads (L ++ [kv]) = multiHeads L ++ [p] := by
        simp [multiHeads, List.filterMap_append, hs]
      have hnames' : ∀ s ∈ q :: rest, NameOK s := by
        intro s hsx
        exact hkvname s (by rw [hs]; simp [hsx])
      have hconfM : ∀ q' ∈ multisOf L p,
          ¬ q'.1 <+: (q :: rest) ∧ ¬ (q :: rest) <+: q'.1 := by
        intro q' hq'
        obtain ⟨kv', hkv', hs', _, _⟩ := multisOf_mem L p q' hq'
        have hr := hrel kv'.1 (List.mem_map.mpr ⟨kv', hkv', rfl⟩)
        constructor
        · intro hpre
          obtain ⟨t2, ht2⟩ := hpre
          refine hr.1 ?_
          rw [hs', hs]
          exact ⟨t2, by rw [List.cons_append, ht2]⟩
        · intro hpre
          obtain ⟨t2, ht2⟩ := hpre
          refine hr.2 ?_
          rw [hs', hs]
          exact ⟨t2, by rw [List.cons_append, ht2]⟩
      rcases hv : lookupA dirs p with _ | dd
      · have hfreshp : p ∉ dirs.map Prod.fst := (lookupA_none_iff dirs p).mp hv
        have hmempty : multisOf L p = [] := by
          by_contra hx
          exact hfreshp (hcov p (multisOf_ne_nil_head L p hx))
        obtain ⟨c2, hc2, hwfc2, hpc2⟩ := insertSub_spec (q :: rest) [] kv.2 (by simp)
          hnames' hkvhex ⟨by simp, by simp [WFDl]⟩
          (by intro q' hq'; simp [flatSegs] at hq')
        have hc2p : (flatSegs c2).Perm [(q :: rest, kv.2)] := by
          refine hpc2.trans ?_
          rw [show flatSegs ([] : NDict) = [] from rfl]
        have hc2ne : c2 ≠ [] := by
          intro he
          rw [he] at hc2p
          have := hc2p.length_eq
          simp [flatSegs] at this
        refine ⟨dirs ++ [(p, c2)], ?_, ?_, ?_, ?_, ?_⟩
        · rw [hstep, hbr]
          simp only [buildRootStep, hs, hv, Option.getD_none, hc2]
          rw [dinsert_fresh _ _ _ hfreshp, hS]
        · simp only [List.map_append, List.map_cons, List.map_nil, List.nodup_append]
          refine ⟨hndD, by simp, ?_⟩
          intro a ha hb
          simp only [List.mem_singleton] at hb
          rw [hb] at ha
          exact hfreshp ha
        · intro p' hp'
          rw [hS]
          simp only [List.map_append, List.map_cons, List.map_nil,
            List.mem_append] at hp'
          rcases hp' with hc | hc
          · exact hdisj p' hc
          · simp only [List.mem_singleton] at hc
            rw [hc]
            intro hmem
            rcases List.mem_map.mp hmem with ⟨pv, hpv, hpe⟩
            obtain ⟨kv', hkv', hs', _⟩ := singlesOf_mem L pv hpv
            have hr := hrel kv'.1 (List.mem_map.mpr ⟨kv', hkv', rfl⟩)
            refine hr.1 ?_
            rw [hs', hs, hpe]
            exact ⟨q :: rest, rfl⟩
        · intro p' hp'
          rw [hH] at hp'
          simp only [List.map_append, List.map_cons, List.map_nil, List.mem_append]
          rcases List.mem_append.mp hp' with hc | hc
          · exact Or.inl (hcov p' hc)
          · simp only [List.mem_singleton] at hc
            exact Or.inr (by simp [hc])
        · intro pd hpd
          rcases List.mem_append.mp hpd with hc | hc
          · obtain ⟨a, b, c, d4⟩ := hinv pd hc
            have hpdnep : pd.1 ≠ p := by
              intro he
              refine hfreshp ?_
              rw [← he]
              exact List.mem_map.mpr ⟨pd, hc, rfl⟩
            exact ⟨a, b, c, by rw [hMne pd.1 hpdnep]; exact d4⟩
          · simp only [List.mem_singleton] at hc
            rw [hc]
            refine ⟨hc2ne, hpname, hwfc2, ?_⟩
            show (flatSegs c2).Perm (multisOf (L ++ [kv]) p)
            rw [hMp, hmempty, List.nil_append]
            exact hc2p
      · have hmemd : (p, dd) ∈ dirs := lookupA_some_mem dirs p dd hv
        obtain ⟨hddne, hpn0, hddwf, hddperm⟩ := hinv (p, dd) hmemd
        have hconfdd : ∀ q' ∈ flatSegs dd,
            ¬ q'.1 <+: (q :: rest) ∧ ¬ (q :: rest) <+: q'.1 := by
          intro q' hq'
          exact hconfM q' (hddperm.mem_iff.mp hq')
        obtain ⟨c2, hc2, hwfc2, hpc2⟩ := insertSub_spec (q :: rest) dd kv.2 (by simp)
          hnames' hkvhex hddwf hconfdd
        have hc2ne : c2 ≠ [] := by
          intro he
          rw [he] at hpc2
          have := hpc2.length_eq
          simp [flatSegs] at this
        obtain ⟨d1, d2L, hde, hnotin1, hdins⟩ := lookupA_split dirs p dd hndD hv
        have hnames_eq : (d1 ++ (p, c2) :: d2L).map Prod.fst = dirs.map Prod.fst := by
          rw [hde]
          simp [List.map_append]
        have hpn2 : p ∉ d2L.map Prod.fst := by
          have hx := hndD
          rw [hde] at hx
          simp only [List.map_append, List.map_cons, List.nodup_append,
            List.nodup_cons] at hx
          exact hx.2.1.1
        refine ⟨d1 ++ (p, c2) :: d2L, ?_, ?_, ?_, ?_, ?_⟩
        · rw [hstep, hbr]
          simp only [buildRootStep, hs, hv, Option.getD_some, hc2]
          rw [hdins, hS]
        · rw [hnames_eq]
          exact hndD
        · intro p' hp'
          rw [hnames_eq] at hp'
          rw [hS]
          exact hdisj p' hp'
        · intro p' hp'
          rw [hH] at hp'
          rw [hnames_eq]
          rcases List.mem_append.mp hp' with hc | hc
          · exact hcov p' hc
          · simp only [List.mem_singleton] at hc
            rw [hc]
            exact List.mem_map.mpr ⟨(p, dd), hmemd, rfl⟩
        · intro pd hpd
          rcases List.mem_append.mp hpd with hc | hc
          · obtain ⟨a, b, c, d4⟩ := hinv pd (by rw [hde]; exact List.mem_append_left _ hc)
            have hne : pd.1 ≠ p := by
              intro he
              refine hnotin1 ?_
              rw [← he]
              exact List.mem_map.mpr ⟨pd, hc, rfl⟩
            exact ⟨a, b, c, by rw [hMne pd.1 hne]; exact d4⟩
          · rcases List.mem_cons.mp hc with hc1 | hc1
            · rw [hc1]
              refine ⟨hc2ne, hpn0, hwfc2, ?_⟩
              show (flatSegs c2).Perm (multisOf (L ++ [kv]) p)
              rw [hMp]
              refine hpc2.trans ?_
              refine List.Perm.trans (List.Perm.cons _ hddperm) ?_
              exact (List.perm_append_singleton _ _).symm
            · obtain ⟨a, b, c, d4⟩ := hinv pd
                (by rw [hde]; exact List.mem_append_right _ (List.mem_cons_of_mem _ hc1))
              have hne : pd.1 ≠ p := by
                intro he
                refine hpn2 ?_
                rw [← he]
                exact List.mem_map.mpr ⟨pd, hc1, rfl⟩
              exact ⟨a, b, c, by rw [hMne pd.1 hne]; exact d4⟩

theorem foldl_dinsert_map_fresh : ∀ (dirs : List (Str × NDict)) (acc : NDict),
    (∀ p ∈ dirs.map Prod.fst, p ∉ acc.map Prod.fst) → (dirs.map Prod.fst).Nodup →
    dirs.foldl (fun re p => dinsert re p.1 (.dict p.2)) acc =
      acc ++ dirs.map (fun pd => (pd.1, NVal.dict pd.2)) := by
  intro dirs
  induction dirs with
  | nil =>
    intro acc _ _
    simp
  | cons pd t ih =>
    intro acc hfresh hnd
    obtain ⟨p, dd⟩ := pd
    simp only [List.map_cons, List.nodup_cons] at hnd
    rw [List.foldl_cons]
    rw [show dinsert acc p (.dict dd) = acc ++ [(p, NVal.dict dd)] from
      dinsert_fresh acc p (NVal.dict dd)
        (hfresh p (by rw [List.map_cons]; exact List.mem_cons_self _ _))]
    rw [ih (acc ++ [(p, NVal.dict dd)]) ?_ hnd.2]
    · simp [List.append_assoc]
    · intro p2 hp2
      simp only [List.map_append, List.mem_append, List.map_cons, List.map_nil]
      rintro (h | h)
      · exact hfresh p2 (by rw [List.map_cons]; exact List.mem_cons_of_mem _ hp2) h
      · simp only [List.mem_singleton] at h
        rw [h] at hp2
        exact hnd.1 hp2

theorem flatSegs_files : ∀ (files : List (Str × Str)),
    flatSegs (files.map (fun pv => (pv.1, NVal.str pv.2))) =
      files.map (fun pv => ([pv.1], pv.2)) := by
  intro files
  induction files with
  | nil => rfl
  | cons pv t ih =>
    simp only [List.map_cons, flatSegs, flatItem, ih]
    rfl

theorem flatSegs_dirs : ∀ (dirs : List (Str × NDict)),
    flatSegs (dirs.map (fun pd => (pd.1, NVal.dict pd.2))) =
      dirs.flatMap (fun pd => (flatSegs pd.2).map (fun q2 => (pd.1 :: q2.1, q2.2))) := by
  intro dirs
  induction dirs with
  | nil => rfl
  | cons pd t ih =>
    simp only [List.map_cons, flatSegs, flatItem, ih, List.flatMap_cons]

theorem flatMap_over_fst {β : Type} : ∀ (l : List (Str × NDict)) (g : Str → List β),
    l.flatMap (fun pd => g pd.1) = (l.map Prod.fst).flatMap g := by
  intro l g
  induction l with
  | nil => rfl
  | cons pd t ih =>
    simp only [List.map_cons, List.flatMap_cons, ih]

theorem WFDl_of_forall : ∀ (d : NDict), (∀ nv ∈ d, NameOK nv.1 ∧ WFV nv.2) → WFDl d := by
  intro d
  induction d with
  | nil =>
    intro _
    simp [WFDl]
  | cons nv t ih =>
    intro h
    obtain ⟨n, v⟩ := nv
    simp only [WFDl]
    exact ⟨h (n, v) (by simp), ih (fun x hx => h x (by simp [hx]))⟩

theorem singlesOf_names_nodup : ∀ (L : List (Str × Str)),
    (L.map Prod.fst).Pairwise (fun k1 k2 =>
      ¬ splitOnC '/' k1 <+: splitOnC '/' k2 ∧
      ¬ splitOnC '/' k2 <+: splitOnC '/' k1) →
    ((singlesOf L).map Prod.fst).Nodup := by
  intro L
  induction L with
  | nil =>
    intro _
    simp [singlesOf]
  | cons kv t ih =>
    intro hpw
    rw [List.map_cons, List.pairwise_cons] at hpw
    rcases hs : splitOnC '/' kv.1 with _ | ⟨p, t2⟩
    · exact absurd hs (splitOnC_ne_nil '/' kv.1)
    rcases t2 with _ | ⟨q, rest⟩
    · rw [show singlesOf (kv :: t) = (p, kv.2) :: singlesOf t from by
        simp [singlesOf, hs]]
      rw [List.map_cons, List.nodup_cons]
      refine ⟨?_, ih hpw.2⟩
      intro hmem
      rcases List.mem_map.mp hmem with ⟨pv, hpv, hpe⟩
      obtain ⟨kv', hkv', hs', _⟩ := singlesOf_mem t pv hpv
      have hr := hpw.1 kv'.1 (List.mem_map.mpr ⟨kv', hkv', rfl⟩)
      refine hr.1 ?_
      rw [hs', hs, hpe]
    · rw [show singlesOf (kv :: t) = singlesOf t from by simp [singlesOf, hs]]
      exact ih hpw.2

/-- The nested mapping `create_tree_from_index` regroups an index into
(empty when the partitioning raises). -/
def rootDictD (ix : List (Str × Str)) : NDict :=
  match buildRootDicts ix with
  | some fd => rootEntriesOf fd.1 fd.2
  | none => []

theorem create_tree_from_index_eq (sha1 : Bytes → Str) (compress : Bytes → Bytes)
    (ix : List (Str × Str)) (st : Store)
    (files : List (Str × Str)) (dirs : List (Str × NDict))
    (hbr : buildRootDicts ix = some (files, dirs)) :
    create_tree_from_index sha1 compress ix st =
      some (create_tree_rec sha1 compress (rootEntriesOf files dirs) st) := by
  rw [create_tree_from_index]
  by_cases hix : ix = []
  · rw [if_pos hix]
    rw [hix] at hbr
    have hfd : some (([], []) : List (Str × Str) × List (Str × NDict)) =
        some (files, dirs) := hbr
    injection hfd with hpair
    injection hpair with hf hd
    rw [← hf, ← hd]
    rw [show rootEntriesOf [] [] = ([] : NDict) from rfl]
    rw [show create_tree_rec sha1 compress [] st =
      storePut sha1 compress st (treeObj []) from by
        rw [create_tree_rec]
        rw [show ctrEntries sha1 compress [] st = (st, []) from rfl]]
  · rw [if_neg hix]
    simp only [hbr]

/-- C1: for an index whose keys are slash-separated paths of usable
segments, pairwise free of directory-prefix overlaps, with forty-hex
values, `create_tree_from_index` (on a fresh store) succeeds and returns
the root hash of the regrouped nested mapping, and
`build_index_from_tree` from that root hash recovers exactly the original
index as a mapping (a key-distinct permutation), for every fuel bound
exceeding the tree depth; digest collision freedom on the stored objects
and lossless compression are assumed. -/
theorem index_tree_roundtrip
    (sha1 : Bytes → Str) (compress : Bytes → Bytes) (decompress : Bytes → Option Bytes)
    (rt : ∀ b, decompress (compress b) = some b)
    (hhex : ∀ b, Hex40 (sha1 b))
    (ix : List (Str × Str))
    (hseg : ∀ k ∈ ix.map Prod.fst, ∀ s ∈ splitOnC '/' k, NameOK s)
    (hval : ∀ v ∈ ix.map Prod.snd, Hex40 v)
    (hpf : (ix.map Prod.fst).Pairwise (fun k1 k2 =>
      ¬ splitOnC '/' k1 <+: splitOnC '/' k2 ∧ ¬ splitOnC '/' k2 <+: splitOnC '/' k1))
    (hinj : HashInj sha1 (treeObjsOf sha1 (rootDictD ix))) :
    ∃ st1, create_tree_from_index sha1 compress ix [] =
        some (st1, treeHashOfDict sha1 (rootDictD ix)) ∧
      ∀ fu, ndepth (rootDictD ix) < fu →
        (build_index_F decompress st1 fu (treeHashOfDict sha1 (rootDictD ix)) []).Perm ix := by
  obtain ⟨dirs, hbr, hndD, hdisj, hcov, hinv⟩ := buildRootDicts_spec ix hseg hval hpf
  have hrd : rootDictD ix = rootEntriesOf (singlesOf ix) dirs := by
    rw [rootDictD]
    simp only [hbr]
  have hfkeys : ((singlesOf ix).map (fun pv => (pv.1, NVal.str pv.2))).map Prod.fst =
      (singlesOf ix).map Prod.fst := by
    rw [List.map_map]
    exact List.map_congr_left (fun x _ => rfl)
  have hdkeys : (dirs.map (fun pd => (pd.1, NVal.dict pd.2))).map Prod.fst =
      dirs.map Prod.fst := by
    rw [List.map_map]
    exact List.map_congr_left (fun x _ => rfl)
  have hre : rootEntriesOf (singlesOf ix) dirs =
      (singlesOf ix).map (fun pv => (pv.1, NVal.str pv.2)) ++
      dirs.map (fun pd => (pd.1, NVal.dict pd.2)) := by
    rw [rootEntriesOf]
    refine foldl_dinsert_map_fresh dirs _ ?_ hndD
    intro p hp
    rw [hfkeys]
    exact hdisj p hp
  have hsnodup : ((singlesOf ix).map Prod.fst).Nodup := singlesOf_names_nodup ix hpf
  have hwfd : WFD (rootEntriesOf (singlesOf ix) dirs) := by
    constructor
    · rw [hre, List.map_append, hfkeys, hdkeys, List.nodup_append]
      exact ⟨hsnodup, hndD, fun a ha hb => hdisj a hb ha⟩
    · rw [hre, WFDl_append]
      constructor
      · refine WFDl_of_forall _ ?_
        intro nv hnv
        rcases List.mem_map.mp hnv with ⟨pv, hpv, hpe⟩
        obtain ⟨kv, hkv, hs', hv2⟩ := singlesOf_mem ix pv hpv
        rw [← hpe]
        constructor
        · exact hseg kv.1 (List.mem_map.mpr ⟨kv, hkv, rfl⟩) pv.1 (by rw [hs']; simp)
        · show WFV (NVal.str pv.2)
          simp only [WFV]
          rw [← hv2]
          exact hval kv.2 (List.mem_map.mpr ⟨kv, hkv, rfl⟩)
      · refine WFDl_of_forall _ ?_
        intro nv hnv
        rcases List.mem_map.mp hnv with ⟨pd, hpd, hpe⟩
        obtain ⟨hne, hnm, hwf2, _⟩ := hinv pd hpd
        rw [← hpe]
        refine ⟨hnm, ?_⟩
        show WFV (NVal.dict pd.2)
        simp only [WFV]
        exact ⟨hne, hwf2.1, hwf2.2⟩
  have hflatperm : (flatSegs (rootEntriesOf (singlesOf ix) dirs)).Perm (segsOf ix) := by
    rw [hre, flatSegs_append, flatSegs_files, flatSegs_dirs]
    have hstep1 : (dirs.flatMap (fun pd => (flatSegs pd.2).map
        (fun q2 => (pd.1 :: q2.1, q2.2)))).Perm
        (dirs.flatMap (fun pd => (multisOf ix pd.1).map
          (fun q2 => (pd.1 :: q2.1, q2.2)))) := by
      refine flatMap_congr_perm dirs _ _ ?_
      intro pd hpd
      exact ((hinv pd hpd).2.2.2).map _
    have hstep2 : dirs.flatMap (fun pd => (multisOf ix pd.1).map
        (fun q2 => (pd.1 :: q2.1, q2.2))) =
        (dirs.map Prod.fst).flatMap (fun p => (multisOf ix p).map
          (fun q2 => (p :: q2.1, q2.2))) :=
      flatMap_over_fst dirs
        (fun p => (multisOf ix p).map (fun q2 => (p :: q2.1, q2.2)))
    refine (List.Perm.append_left _ (hstep1.trans (by rw [hstep2]))).trans ?_
    exact (segs_partition ix (dirs.map Prod.fst) hndD hcov).symm
  have hgood0 : GoodStore sha1 compress
      (treeObjsOf sha1 (rootEntriesOf (singlesOf ix) dirs)) [] := by
    intro k v h
    simp [lookupA] at h
  rw [hrd] at hinj
  obtain ⟨hsnd, hgood, hpres⟩ := create_tree_rec_spec sha1 compress _ hinj
    (rootEntriesOf (singlesOf ix) dirs) [] hgood0 (fun o ho => ho)
  have hpair : create_tree_rec sha1 compress (rootEntriesOf (singlesOf ix) dirs) [] =
      ((create_tree_rec sha1 compress (rootEntriesOf (singlesOf ix) dirs) []).1,
        treeHashOfDict sha1 (rootEntriesOf (singlesOf ix) dirs)) := by
    rw [← hsnd]
  refine ⟨(create_tree_rec sha1 compress (rootEntriesOf (singlesOf ix) dirs) []).1, ?_, ?_⟩
  · rw [create_tree_from_index_eq sha1 compress ix [] (singlesOf ix) dirs hbr, hrd]
    exact congrArg some hpair
  · intro fu hfu
    rw [hrd] at hfu ⊢
    refine (build_index_F_perm sha1 compress decompress rt hhex _ fu
      (rootEntriesOf (singlesOf ix) dirs) [] hwfd hfu (fun o ho => hpres o ho)).trans ?_
    rw [flatStrs]
    refine (hflatperm.map _).trans ?_
    have hmeq : (segsOf ix).map
        (fun q : List Str × Str => (([] : Str) ++ joinC '/' q.1, q.2)) = ix := by
      rw [segsOf, List.map_map]
      have hpt : ∀ kv ∈ ix,
          ((fun q : List Str × Str => (([] : Str) ++ joinC '/' q.1, q.2)) ∘
            (fun kv : Str × Str => (splitOnC '/' kv.1, kv.2))) kv = kv := by
        intro kv _
        simp only [Function.comp_apply, List.nil_append, joinC_splitOnC]
      rw [List.map_congr_left hpt]
      simp
    rw [hmeq]

theorem hex40OfNat_go_spec : ∀ (k m : Nat), (hex40OfNat.go k m).length = k ∧
    ∀ ch ∈ hex40OfNat.go k m, isLowerHex ch = true := by
  intro k
  induction k with
  | zero =>
    intro m
    exact ⟨rfl, by simp [hex40OfNat.go]⟩
  | succ k ih =>
    intro m
    simp only [hex40OfNat.go]
    obtain ⟨hl, hall⟩ := ih (m / 16)
    constructor
    · simp [hl]
    · intro ch hch
      rcases List.mem_append.mp hch with h | h
      · exact hall ch h
      · simp only [List.mem_singleton] at h
        rw [h]
        have hr : m % 16 < 16 := Nat.mod_lt _ (by omega)
        generalize hg : m % 16 = r at hr
        interval_cases r <;> decide

theorem toySha_hex : ∀ b, Hex40 (toySha b) := by
  intro b
  rw [toySha, hex40OfNat]
  exact ⟨(hex40OfNat_go_spec 40 _).1, (hex40OfNat_go_spec 40 _).2⟩

instance (n : Str) : Decidable (NameOK n) := by
  unfold NameOK
  infer_instance

instance (sha1 : Bytes → Str) (U : List GitObj) : Decidable (HashInj sha1 U) := by
  unfold HashInj
  infer_instance

set_option maxRecDepth 10000 in
/-- Witness for C1 at the spec's own example index, with the toy digest
and identity compression. -/
theorem index_tree_roundtrip_witness :
    ∃ st1, create_tree_from_index toySha idCompress
        [("a.txt".data, hex40OfNat 5), ("dir/b.txt".data, hex40OfNat 7)] [] =
        some (st1, treeHashOfDict toySha
          (rootDictD [("a.txt".data, hex40OfNat 5), ("dir/b.txt".data, hex40OfNat 7)])) ∧
      ∀ fu, ndepth (rootDictD [("a.txt".data, hex40OfNat 5),
          ("dir/b.txt".data, hex40OfNat 7)]) < fu →
        (build_index_F idDecompress st1 fu (treeHashOfDict toySha
          (rootDictD [("a.txt".data, hex40OfNat 5), ("dir/b.txt".data, hex40OfNat 7)]))
          []).Perm [("a.txt".data, hex40OfNat 5), ("dir/b.txt".data, hex40OfNat 7)] :=
  index_tree_roundtrip toySha idCompress idDecompress (fun _ => rfl) toySha_hex
    [("a.txt".data, hex40OfNat 5), ("dir/b.txt".data, hex40OfNat 7)]
    (by decide) (by decide) (by decide) (by decide)
